import Mathlib

/-!
Verification of rust-pipe against its specification.

This file gives a shallow embedding, in Lean 4, of the parts of the
rust-pipe command-line pipeline tool that the checked claims are about:

* the multi-range slice iterator (`src/op/slice.rs`),
* the condition predicate engine (`src/condition.rs`, `src/lib.rs`),
* the bidirectional integer range generator (`src/input.rs`),
* the trim operator family (`src/op/trim.rs`),
* the chunked-join iterator and the `:case` switch map (`src/op/mod.rs`),
* the `:limit` argument parser (`src/parse/args/op.rs`, `src/parse/args/mod.rs`).

Rust `String`/`&str` values are modelled as Lean `String` or `List Char`
(Rust `chars()` enumerates Unicode scalar values, exactly Lean `Char`);
where byte-level behaviour matters (the `:case` switch operates on UTF-8
bytes) strings are modelled as `List Nat` byte lists.  Machine integers
(`i64`, `usize`) are modelled as `Int`/`Nat` with explicit range checks
where the source checks them.  Iterators with internal state are modelled
as explicit state passing; unbounded iteration is run with explicit fuel.
-/

/- ********************************************************************
   Multi-range slice iterator, from `src/op/slice.rs`.

   `SliceIter` holds an `Enumerate`d source and a `Peekable` list of
   `(Option<usize>, Option<usize>)` ranges.  We model the iterator state
   as the remaining enumerated source (a `List (Nat × α)`) plus the
   remaining range list; `sliceNext` is a direct translation of
   `SliceIter::next` (the `while let` loop over the source becomes
   recursion on the source list; `ranges.peek()` inspects the head and
   `ranges.next()` drops it).
   ******************************************************************** -/

/-- One `(Option<usize>, Option<usize>)` index range of the slice operator. -/
abbrev SliceRange := Option Nat × Option Nat

/-- Translation of `SliceIter::next` (src/op/slice.rs lines 13-38): returns
the next emitted item together with the remaining source and ranges, or
`none` when the iterator is exhausted. -/
def sliceNext {α : Type} : List (Nat × α) → List SliceRange → Option (α × List (Nat × α) × List SliceRange)
  | _, [] => none
  | [], _ :: _ => none
  | (idx, item) :: rest, ranges@((some s, some e) :: rtail) =>
    if s ≤ idx ∧ idx ≤ e then
      some (item, rest, if idx = e then rtail else ranges)
    else
      sliceNext rest ranges
  | (idx, item) :: rest, ranges@((some s, none) :: _) =>
    if s ≤ idx then some (item, rest, ranges) else sliceNext rest ranges
  | (idx, item) :: rest, ranges@((none, some e) :: rtail) =>
    if idx ≤ e then
      some (item, rest, if idx = e then rtail else ranges)
    else
      sliceNext rest ranges
  | _ :: rest, ranges@((none, none) :: _) =>
    -- the match in the source has no arm for `(None, None)`; its `_ => continue`
    -- arm skips the item
    sliceNext rest ranges

/-- Repeatedly call `sliceNext`, collecting the emitted items (with fuel;
each call consumes at least one source element, so `source.length + 1`
fuel is always enough). -/
def sliceRun {α : Type} : Nat → List (Nat × α) → List SliceRange → List α
  | 0, _, _ => []
  | fuel + 1, src, ranges =>
    match sliceNext src ranges with
    | none => []
    | some (x, rest, rs) => x :: sliceRun fuel rest rs

/-- Collect the whole output of `SliceIter::new(items, ranges)`:
the source is enumerated (`.enumerate()`) and then drained. -/
def sliceOutputs {α : Type} (items : List α) (ranges : List SliceRange) : List α :=
  sliceRun (items.length + 1) items.enum ranges

/-- C1 counterexample: with ranges `[(0,5),(7,10),(3,9)]` over 11 items the
output is NOT the full index set `0..=10`: index 6 lies in the union of the
ranges (it is inside `(3,9)`), yet it is omitted, because when index 6
arrives the current head range is `(7,10)` and `(3,9)` only becomes current
after `(7,10)` is satisfied at index 10. -/
theorem slice_union_claim_false :
    sliceOutputs (List.range 11) [(some 0, some 5), (some 7, some 10), (some 3, some 9)]
      = [0, 1, 2, 3, 4, 5, 7, 8, 9, 10]
    ∧ 3 ≤ 6 ∧ 6 ≤ 9
    ∧ 6 ∉ sliceOutputs (List.range 11) [(some 0, some 5), (some 7, some 10), (some 3, some 9)] := by
  decide

/-- C1 (amended): for the slice operator applied with ranges
`[(0,5),(7,10),(3,9)]` to 11 upstream items, the output consists of the
items at indices `[0,1,2,3,4,5,7,8,9,10]`, each emitted exactly once and in
ascending index order; index 6 is omitted even though it lies in the union
of the ranges, because each index is only tested against the current head
range. -/
theorem slice_amended_output :
    sliceOutputs (List.range 11) [(some 0, some 5), (some 7, some 10), (some 3, some 9)]
      = [0, 1, 2, 3, 4, 5, 7, 8, 9, 10]
    ∧ List.Pairwise (· < ·) [0, 1, 2, 3, 4, 5, 7, 8, 9, 10] := by
  decide

/- ********************************************************************
   Bidirectional integer range generator, from `src/input.rs`.

   `RangeIter` (lines 247-287) is a double-ended iterator over `i64`;
   `range_to_iter` (lines 233-245) builds it with `step = |step|`,
   `next = start`, `next_back = if included { end } else { end - 1 }`
   and reverses the iterator (i.e. drains it through `next_back`) when
   the requested step is negative.  The source field `end` is renamed
   `stop` here (`end` is a Lean keyword).
   ******************************************************************** -/

/-- State of the `RangeIter` double-ended iterator (src/input.rs). -/
structure RangeIter where
  start : Int
  stop : Int
  included : Bool
  step : Int
  next : Int
  next_back : Int
  deriving Repr, DecidableEq

/-- Translation of `RangeIter::next` (src/input.rs lines 257-272). -/
def RangeIter.next? (it : RangeIter) : Option (Int × RangeIter) :=
  if it.start ≤ it.next
      ∧ ((it.included = true ∧ it.next ≤ it.stop) ∨ (it.included = false ∧ it.next < it.stop))
      ∧ it.next ≤ it.next_back then
    some (it.next, { it with next := it.next + it.step })
  else none

/-- Translation of `RangeIter::next_back` (src/input.rs lines 274-287). -/
def RangeIter.nextBack? (it : RangeIter) : Option (Int × RangeIter) :=
  if it.start ≤ it.next_back
      ∧ ((it.included = true ∧ it.next_back ≤ it.stop) ∨ (it.included = false ∧ it.next_back < it.stop))
      ∧ it.next ≤ it.next_back then
    some (it.next_back, { it with next_back := it.next_back - it.step })
  else none

/-- Drain up to `fuel` items from the front of the iterator. -/
def RangeIter.take : RangeIter → Nat → List Int
  | _, 0 => []
  | it, n + 1 =>
    match it.next? with
    | none => []
    | some (x, it2) => x :: it2.take n

/-- Drain up to `fuel` items from the back of the iterator (this is what
`iter.rev()` yields when `range_to_iter` is called with a negative step). -/
def RangeIter.takeBack : RangeIter → Nat → List Int
  | _, 0 => []
  | it, n + 1 =>
    match it.nextBack? with
    | none => []
    | some (x, it2) => x :: it2.takeBack n

/-- Translation of `range_to_iter` (src/input.rs lines 233-245), run for
`fuel` steps: the iterator is built with `step = |step|` and drained from
the back when the requested step is negative, from the front otherwise. -/
def range_to_iter_run (start stop : Int) (included : Bool) (step : Int) (fuel : Nat) : List Int :=
  let it : RangeIter :=
    ⟨start, stop, included, |step|, start, if included then stop else stop - 1⟩
  if step < 0 then it.takeBack fuel else it.take fuel

/-- Once the forward run has terminated within its fuel (strictly fewer
items than fuel), more fuel yields the same list. -/
theorem RangeIter.take_mono_of_short :
    ∀ (n : Nat) (it : RangeIter), (it.take n).length < n →
      ∀ m, n ≤ m → it.take m = it.take n := by
  intro n
  induction n with
  | zero => intro it h; omega
  | succ n ih =>
    intro it h m hm
    obtain ⟨m', rfl⟩ : ∃ m', m = m' + 1 := ⟨m - 1, by omega⟩
    cases hx : it.next? with
    | none => simp [RangeIter.take, hx]
    | some p =>
      obtain ⟨x, it2⟩ := p
      simp only [RangeIter.take, hx] at h ⊢
      simp only [List.length_cons] at h
      rw [ih it2 (by omega) m' (by omega)]

/-- Arithmetic-progression lists: peeling the first term off an ascending
progression. -/
theorem map_range_shift (n : Nat) (a s : Int) :
    (List.range (n + 1)).map (fun j : Nat => a + (j : Int) * s)
      = a :: (List.range n).map (fun j : Nat => (a + s) + (j : Int) * s) := by
  rw [List.range_succ_eq_map, List.map_cons, List.map_map]
  simp only [Nat.cast_zero, zero_mul, add_zero, List.cons.injEq, true_and]
  apply List.map_congr_left
  intro j _
  simp only [Function.comp_apply]
  push_cast
  ring

/-- Arithmetic-progression lists: peeling the first term off a descending
progression. -/
theorem map_range_shift_sub (n : Nat) (a s : Int) :
    (List.range (n + 1)).map (fun j : Nat => a - (j : Int) * s)
      = a :: (List.range n).map (fun j : Nat => (a - s) - (j : Int) * s) := by
  rw [List.range_succ_eq_map, List.map_cons, List.map_map]
  simp only [Nat.cast_zero, zero_mul, sub_zero, List.cons.injEq, true_and]
  apply List.map_congr_left
  intro j _
  simp only [Function.comp_apply]
  push_cast
  ring

/-- Closed form of a forward drain: if the back pointer is aligned with the
front pointer (`next_back = next + k * step`, `step > 0`) and the `stop`
bound does not cut the run short of `next_back`, the iterator yields exactly
the arithmetic progression `next, next + step, …, next + k * step`. -/
theorem RangeIter.take_closed :
    ∀ (k : Nat) (it : RangeIter) (fuel : Nat),
      0 < it.step →
      it.start ≤ it.next →
      it.next_back = it.next + k * it.step →
      (it.included = true → it.next_back ≤ it.stop) →
      (it.included = false → it.next_back < it.stop) →
      k + 1 ≤ fuel →
      it.take fuel = (List.range (k + 1)).map (fun j : Nat => it.next + (j : Int) * it.step) := by
  intro k
  induction k with
  | zero =>
    intro it fuel hs hsn hback hincl hexcl hfuel
    obtain ⟨f, rfl⟩ : ∃ f, fuel = f + 1 := ⟨fuel - 1, by omega⟩
    simp only [Nat.cast_zero, zero_mul, add_zero] at hback
    have hcond : it.start ≤ it.next
        ∧ ((it.included = true ∧ it.next ≤ it.stop) ∨ (it.included = false ∧ it.next < it.stop))
        ∧ it.next ≤ it.next_back := by
      refine ⟨hsn, ?_, by omega⟩
      cases hb : it.included with
      | true => exact Or.inl ⟨rfl, by have := hincl hb; omega⟩
      | false => exact Or.inr ⟨rfl, by have := hexcl hb; omega⟩
    have hx : it.next? = some (it.next, { it with next := it.next + it.step }) := by
      rw [RangeIter.next?, if_pos hcond]
    have hdead : ({ it with next := it.next + it.step } : RangeIter).next? = none := by
      rw [RangeIter.next?, if_neg]
      rintro ⟨-, -, h3⟩
      simp only at h3
      omega
    have hnil : ∀ m, ({ it with next := it.next + it.step } : RangeIter).take m = [] := by
      intro m; cases m <;> simp [RangeIter.take, hdead]
    simp [RangeIter.take, hx, hnil, List.range_succ]
  | succ k ih =>
    intro it fuel hs hsn hback hincl hexcl hfuel
    obtain ⟨f, rfl⟩ : ∃ f, fuel = f + 1 := ⟨fuel - 1, by omega⟩
    have hkpos : (0 : Int) ≤ (k + 1 : Nat) * it.step := by positivity
    have hback' : it.next ≤ it.next_back := by
      rw [hback]; push_cast at hkpos ⊢; linarith
    have hcond : it.start ≤ it.next
        ∧ ((it.included = true ∧ it.next ≤ it.stop) ∨ (it.included = false ∧ it.next < it.stop))
        ∧ it.next ≤ it.next_back := by
      refine ⟨hsn, ?_, hback'⟩
      cases hb : it.included with
      | true => exact Or.inl ⟨rfl, le_trans hback' (hincl hb)⟩
      | false => exact Or.inr ⟨rfl, lt_of_le_of_lt hback' (hexcl hb)⟩
    have hx : it.next? = some (it.next, { it with next := it.next + it.step }) := by
      rw [RangeIter.next?, if_pos hcond]
    have hrec := ih { it with next := it.next + it.step } f hs
      (by simp only; linarith)
      (by simp only [hback]; push_cast; ring)
      (by simpa using hincl)
      (by simpa using hexcl)
      (by omega)
    simp only [RangeIter.take, hx, hrec]
    conv_rhs => rw [map_range_shift (k + 1) it.next it.step]

/-- Closed form of a backward drain (what a negative step produces): under
the same alignment the iterator yields exactly
`next_back, next_back - step, …, next_back - k * step`. -/
theorem RangeIter.takeBack_closed :
    ∀ (k : Nat) (it : RangeIter) (fuel : Nat),
      0 < it.step →
      it.start ≤ it.next →
      it.next_back = it.next + k * it.step →
      (it.included = true → it.next_back ≤ it.stop) →
      (it.included = false → it.next_back < it.stop) →
      k + 1 ≤ fuel →
      it.takeBack fuel = (List.range (k + 1)).map (fun j : Nat => it.next_back - (j : Int) * it.step) := by
  intro k
  induction k with
  | zero =>
    intro it fuel hs hsn hback hincl hexcl hfuel
    obtain ⟨f, rfl⟩ : ∃ f, fuel = f + 1 := ⟨fuel - 1, by omega⟩
    simp only [Nat.cast_zero, zero_mul, add_zero] at hback
    have hcond : it.start ≤ it.next_back
        ∧ ((it.included = true ∧ it.next_back ≤ it.stop) ∨ (it.included = false ∧ it.next_back < it.stop))
        ∧ it.next ≤ it.next_back := by
      refine ⟨by omega, ?_, by omega⟩
      cases hb : it.included with
      | true => exact Or.inl ⟨rfl, hincl hb⟩
      | false => exact Or.inr ⟨rfl, hexcl hb⟩
    have hx : it.nextBack? = some (it.next_back, { it with next_back := it.next_back - it.step }) := by
      rw [RangeIter.nextBack?, if_pos hcond]
    have hdead : ({ it with next_back := it.next_back - it.step } : RangeIter).nextBack? = none := by
      rw [RangeIter.nextBack?, if_neg]
      rintro ⟨-, -, h3⟩
      simp only at h3
      omega
    have hnil : ∀ m, ({ it with next_back := it.next_back - it.step } : RangeIter).takeBack m = [] := by
      intro m; cases m <;> simp [RangeIter.takeBack, hdead]
    simp [RangeIter.takeBack, hx, hnil, List.range_succ]
  | succ k ih =>
    intro it fuel hs hsn hback hincl hexcl hfuel
    obtain ⟨f, rfl⟩ : ∃ f, fuel = f + 1 := ⟨fuel - 1, by omega⟩
    have hkpos : (0 : Int) ≤ (k + 1 : Nat) * it.step := by positivity
    have hback' : it.next ≤ it.next_back := by
      rw [hback]; push_cast at hkpos ⊢; linarith
    have hcond : it.start ≤ it.next_back
        ∧ ((it.included = true ∧ it.next_back ≤ it.stop) ∨ (it.included = false ∧ it.next_back < it.stop))
        ∧ it.next ≤ it.next_back := by
      refine ⟨le_trans hsn hback', ?_, hback'⟩
      cases hb : it.included with
      | true => exact Or.inl ⟨rfl, hincl hb⟩
      | false => exact Or.inr ⟨rfl, hexcl hb⟩
    have hx : it.nextBack? = some (it.next_back, { it with next_back := it.next_back - it.step }) := by
      rw [RangeIter.nextBack?, if_pos hcond]
    have hstep : (0:Int) < it.step := hs
    have hrec := ih { it with next_back := it.next_back - it.step } f hs hsn
      (by simp only [hback]; push_cast; ring)
      (by intro hb; simp only; have := hincl hb; linarith)
      (by intro hb; simp only; have := hexcl hb; linarith)
      (by omega)
    simp only [RangeIter.takeBack, hx, hrec]
    conv_rhs => rw [map_range_shift_sub (k + 1) it.next_back it.step]

/-- C4 counterexample: with start 0, exclusive end 10 and steps ±2 the
negative-step enumeration is `[9,7,5,3,1]`, which is not the reverse of the
positive-step enumeration `[0,2,4,6,8]` (it is not even the same set of
elements), refuting the claim that flipping the step sign always yields the
exact reverse. -/
theorem gen_flip_sign_not_reverse :
    range_to_iter_run 0 10 false 2 20 = [0, 2, 4, 6, 8]
    ∧ range_to_iter_run 0 10 false (-2) 20 = [9, 7, 5, 3, 1]
    ∧ range_to_iter_run 0 10 false (-2) 20 ≠ (range_to_iter_run 0 10 false 2 20).reverse := by
  refine ⟨by decide, by decide, by decide⟩

/-- C4 (amended): flipping the sign of the step enumerates from the
effective top bound (`end` if inclusive, `end - 1` if exclusive) downward
with the same absolute step; this equals the exact reverse of the
positive-step enumeration precisely in the aligned case, i.e. whenever the
effective top bound is `start + k * step` for some `k ≥ 0` (in particular
always for step ±1).  Stated here with any sufficient fuel. -/
theorem gen_flip_sign_reverse (start stop : Int) (included : Bool) (s : Int) (k fuel : Nat)
    (hs : 0 < s)
    (halign : (if included then stop else stop - 1) = start + k * s)
    (hfuel : k + 1 ≤ fuel) :
    range_to_iter_run start stop included (-s) fuel
      = (range_to_iter_run start stop included s fuel).reverse := by
  have habs : |(-s)| = s := by rw [abs_neg, abs_of_pos hs]
  have habs2 : |s| = s := abs_of_pos hs
  have hneg : -s < 0 := neg_neg_of_pos hs
  have hpos : ¬ s < 0 := not_lt.mpr hs.le
  simp only [range_to_iter_run, if_pos hneg, if_neg hpos, habs, habs2]
  have hfwd := RangeIter.take_closed k
      ⟨start, stop, included, s, start, if included then stop else stop - 1⟩ fuel
      hs le_rfl halign
      (by intro hb; have hb' : included = true := hb; dsimp only; rw [if_pos hb'])
      (by intro hb; have hb' : included = false := hb
          dsimp only; rw [if_neg (by simp [hb'])]; omega)
      hfuel
  have hbwd := RangeIter.takeBack_closed k
      ⟨start, stop, included, s, start, if included then stop else stop - 1⟩ fuel
      hs le_rfl halign
      (by intro hb; have hb' : included = true := hb; dsimp only; rw [if_pos hb'])
      (by intro hb; have hb' : included = false := hb
          dsimp only; rw [if_neg (by simp [hb'])]; omega)
      hfuel
  dsimp only at hfwd hbwd
  rw [hfwd, hbwd]
  have hrev : ∀ (n : Nat) (a c : Int),
      ((List.range (n + 1)).map (fun j : Nat => a + (j : Int) * c)).reverse
        = (List.range (n + 1)).map (fun j : Nat => (a + (n : Int) * c) - (j : Int) * c) := by
    intro n
    induction n with
    | zero => intro a c; simp [List.range_succ]
    | succ n ih =>
      intro a c
      rw [map_range_shift (n + 1) a c, List.reverse_cons, ih (a + c) c]
      conv_rhs => rw [List.range_succ]
      rw [List.map_append]
      congr 1
      · apply List.map_congr_left
        intro j _
        push_cast
        ring
      · simp only [List.map_cons, List.map_nil]
        congr 1
        push_cast
        ring
  rw [hrev k start s]
  rw [halign]

/-- C4 witness: at start 0, exclusive end 10, step 1 (aligned case, k = 9)
the negative-step run is the exact reverse of the positive-step run. -/
theorem gen_flip_sign_reverse_witness :
    (0 : Int) < 1
    ∧ ((if false then (10 : Int) else 10 - 1) = 0 + (9 : Nat) * 1)
    ∧ 9 + 1 ≤ 10
    ∧ range_to_iter_run 0 10 false (-1) 10 = (range_to_iter_run 0 10 false 1 10).reverse :=
  ⟨by norm_num, by norm_num, by norm_num,
    gen_flip_sign_reverse 0 10 false 1 9 10 (by norm_num) (by norm_num) (by norm_num)⟩

/-- C5: the `:gen` examples.  With any sufficient fuel, start 0 / exclusive
end 10 / step 2 yields exactly `[0,2,4,6,8]`; start 0 / inclusive end 10 /
step 2 yields exactly `[0,2,4,6,8,10]`; and start 10 / end 0 with the
default exclusive end and (positive) step 1 yields the empty sequence. -/
theorem gen_enumeration_examples (n : Nat) :
    (6 ≤ n → range_to_iter_run 0 10 false 2 n = [0, 2, 4, 6, 8])
    ∧ (7 ≤ n → range_to_iter_run 0 10 true 2 n = [0, 2, 4, 6, 8, 10])
    ∧ (1 ≤ n → range_to_iter_run 10 0 false 1 n = []) := by
  refine ⟨?_, ?_, ?_⟩
  · intro h
    show RangeIter.take ⟨0, 10, false, 2, 0, 9⟩ n = [0, 2, 4, 6, 8]
    rw [RangeIter.take_mono_of_short 6 ⟨0, 10, false, 2, 0, 9⟩ (by decide) n h]
    decide
  · intro h
    show RangeIter.take ⟨0, 10, true, 2, 0, 10⟩ n = [0, 2, 4, 6, 8, 10]
    rw [RangeIter.take_mono_of_short 7 ⟨0, 10, true, 2, 0, 10⟩ (by decide) n h]
    decide
  · intro h
    show RangeIter.take ⟨10, 0, false, 1, 10, -1⟩ n = []
    rw [RangeIter.take_mono_of_short 1 ⟨10, 0, false, 1, 10, -1⟩ (by decide) n h]
    decide

/-- C5 witness: the three enumerations evaluated at fuel 20. -/
theorem gen_enumeration_examples_witness :
    6 ≤ 20 ∧ 7 ≤ 20 ∧ 1 ≤ 20
    ∧ range_to_iter_run 0 10 false 2 20 = [0, 2, 4, 6, 8]
    ∧ range_to_iter_run 0 10 true 2 20 = [0, 2, 4, 6, 8, 10]
    ∧ range_to_iter_run 10 0 false 1 20 = [] :=
  ⟨by decide, by decide, by decide,
    (gen_enumeration_examples 20).1 (by decide),
    (gen_enumeration_examples 20).2.1 (by decide),
    (gen_enumeration_examples 20).2.2 (by decide)⟩

/- ********************************************************************
   Condition predicate engine, from `src/condition.rs` and `src/lib.rs`.

   `Num` is `Integer(i64) | Float(f64)`; its `FromStr` tries the integer
   grammar first, then a *finite* float literal.  Finite `f64` values are
   modelled by their exact rational value (`ℚ`); the model keeps the
   decimal-literal value exact instead of rounding to the nearest double,
   and it does not model the overflow of huge literals to ±infinity —
   no checked claim depends on either.  `nan`/`inf` spellings parse to the
   dedicated `FloatV` constructors and are then rejected by the
   `is_finite` filter, exactly as in `Num::from_str`.  `i64` parsing
   checks the two's-complement range like Rust's `<i64 as FromStr>`.
   ******************************************************************** -/

/-- ASCII-only lowercase of one scalar value (Rust `to_ascii_lowercase`). -/
def asciiLowerChar (c : Char) : Char :=
  if 'A' ≤ c ∧ c ≤ 'Z' then Char.ofNat (c.toNat + 32) else c

/-- Value of a nonempty all-digit run, `none` otherwise (the digit part of
Rust's integer/float literal grammars). -/
def digitsVal? (ds : List Char) : Option Nat :=
  if ds = [] ∨ ¬ ds.all (fun c => c.isDigit) then none
  else some (ds.foldl (fun acc c => acc * 10 + (c.toNat - 48)) 0)

/-- Rust `<i64 as FromStr>`: optional sign, a nonempty digit run, nothing
else, and the value must fit in `i64`. -/
def parseInteger (s : String) : Option Int :=
  let p : Bool × List Char :=
    match s.data with
    | '+' :: r => (false, r)
    | '-' :: r => (true, r)
    | r => (false, r)
  match digitsVal? p.2 with
  | none => none
  | some n =>
    if p.1 then (if n ≤ 2 ^ 63 then some (-(n : Int)) else none)
    else (if n ≤ 2 ^ 63 - 1 then some (n : Int) else none)

/-- Model of an `f64` parse result: a finite value (exact rational), or
one of the non-finite values that `Num::from_str` filters out. -/
inductive FloatV where
  | finite (q : ℚ)
  | nan
  | inf
  | neginf
  deriving Repr, DecidableEq

/-- Rust `f64::is_finite`. -/
def FloatV.isFinite : FloatV → Bool
  | .finite _ => true
  | _ => false

/-- Split a character list at the first character satisfying `p`;
returns the prefix and, when a split character was found, the remainder. -/
def splitFirst (p : Char → Bool) : List Char → List Char × Option (List Char)
  | [] => ([], none)
  | c :: r =>
    if p c then ([], some r)
    else
      let q := splitFirst p r
      (c :: q.1, q.2)

/-- Mantissa of Rust's float grammar, `Digits '.'? Digits? | '.' Digits`,
as an exact rational. -/
def parseDecMantissa (cs : List Char) : Option ℚ :=
  let q := splitFirst (fun c => c = '.') cs
  match q.2 with
  | none => (digitsVal? q.1).map (fun n => (n : ℚ))
  | some fp =>
    match q.1, fp with
    | [], [] => none
    | [], _ :: _ => (digitsVal? fp).map (fun n => (n : ℚ) / (10 : ℚ) ^ fp.length)
    | _ :: _, [] => (digitsVal? q.1).map (fun n => (n : ℚ))
    | _ :: _, _ :: _ =>
      match digitsVal? q.1, digitsVal? fp with
      | some a, some b => some ((a : ℚ) + (b : ℚ) / (10 : ℚ) ^ fp.length)
      | _, _ => none

/-- Number part of Rust's float grammar with its optional exponent
`('e'|'E') Sign? Digits`. -/
def parseDecimal (cs : List Char) : Option ℚ :=
  let q := splitFirst (fun c => c = 'e' ∨ c = 'E') cs
  match parseDecMantissa q.1 with
  | none => none
  | some m =>
    match q.2 with
    | none => some m
    | some ecs =>
      let ep : Bool × List Char :=
        match ecs with
        | '+' :: r => (false, r)
        | '-' :: r => (true, r)
        | r => (false, r)
      match digitsVal? ep.2 with
      | none => none
      | some e => some (if ep.1 then m / (10 : ℚ) ^ e else m * (10 : ℚ) ^ e)

/-- Rust `<f64 as FromStr>`: optional sign, then (case-insensitively)
`inf`/`infinity`/`nan` or a decimal number. -/
def parseFloat (s : String) : Option FloatV :=
  let p : Bool × List Char :=
    match s.data with
    | '+' :: r => (false, r)
    | '-' :: r => (true, r)
    | r => (false, r)
  let low := p.2.map asciiLowerChar
  if low = "inf".data ∨ low = "infinity".data then some (if p.1 then .neginf else .inf)
  else if low = "nan".data then some .nan
  else
    match parseDecimal p.2 with
    | none => none
    | some q => some (.finite (if p.1 then -q else q))

/-- The `Num` tagged union of `src/lib.rs` (finite `f64` as exact `ℚ`);
named `NumV` here because Lean/Mathlib already define a type `Num`. -/
inductive NumV where
  | integer (i : Int)
  | float (q : ℚ)
  deriving Repr, DecidableEq

/-- Numeric value used by `Num`'s `PartialOrd`/`PartialEq`, which compare
an integer against a float by widening (`i64 as f64`); the widening is
modelled exactly (`Int → ℚ` is injective; the rounding of `i64 → f64` for
magnitudes above 2^53 is not modelled, and no checked claim reaches it). -/
def NumV.toRat : NumV → ℚ
  | .integer i => (i : ℚ)
  | .float q => q

/-- The comparison `a <= b` of `Num`'s `PartialOrd` (src/lib.rs 55-64). -/
def NumV.le (a b : NumV) : Bool := decide (a.toRat ≤ b.toRat)

/-- The comparison `a == b` of `Num`'s `PartialEq` (src/lib.rs 66-75). -/
def NumV.eqb (a b : NumV) : Bool := decide (a.toRat = b.toRat)

/-- Translation of `Num::from_str` (src/lib.rs lines 40-53): the integer
grammar is tried first, then a float literal that must be finite. -/
def NumV.fromStr (s : String) : Option NumV :=
  match parseInteger s with
  | some i => some (.integer i)
  | none =>
    match parseFloat s with
    | some (.finite q) => some (.float q)
    | _ => none

/-- The `TextSelectMode` enum of `src/condition.rs`. -/
inductive TextSelectMode where
  | Upper
  | Lower
  | Ascii
  | NonAscii
  | Empty
  | Blank
  deriving Repr, DecidableEq

/-- The `Select` enum of `src/condition.rs` (the `RegMatch` variant holds a
compiled regex from the external `regex` crate; it is treated separately,
at the semantic level, in the regex section below). -/
inductive Select where
  | TextLenRange (min max : Option Nat)
  | TextLenSpec (spec : Nat)
  | NumRange (min max : Option NumV)
  | NumSpec (spec : NumV)
  | NumClass (integer : Option Bool)
  | Text (mode : TextSelectMode)
  deriving Repr, DecidableEq

/-- Translation of `Select::select` (src/condition.rs lines 149-183);
the source variant `Num { integer }` is `NumClass` here (the Lean name
`Num` is taken by the numeric type).  The `Text` arms use Lean's ASCII
`isLower`/`isUpper`/`isWhitespace` for Rust's Unicode-aware predicates;
no checked claim depends on the non-ASCII part of those sets. -/
def Select.select (sel : Select) (input : String) : Bool :=
  match sel with
  | .TextLenRange min max =>
    let len := input.data.length
    (min.elim true (fun m => decide (m ≤ len))) && (max.elim true (fun m => decide (len ≤ m)))
  | .TextLenSpec spec => decide (input.data.length = spec)
  | .NumRange min max =>
    match NumV.fromStr input with
    | some i => (min.elim true (fun m => NumV.le m i)) && (max.elim true (fun m => NumV.le i m))
    | none => false
  | .NumSpec spec =>
    match NumV.fromStr input with
    | some i => NumV.eqb i spec
    | none => false
  | .NumClass integer =>
    match integer with
    | some b =>
      if b then (parseInteger input).isSome
      else !(parseInteger input).isSome && ((parseFloat input).elim false FloatV.isFinite)
    | none => (parseFloat input).elim false FloatV.isFinite
  | .Text mode =>
    match mode with
    | .Upper => !(input.data.any (fun c => c.isLower))
    | .Lower => !(input.data.any (fun c => c.isUpper))
    | .Ascii => input.data.all (fun c => c.toNat < 128)
    | .NonAscii => input.data.all (fun c => !(c.toNat < 128))
    | .Empty => decide (input.data = [])
    | .Blank => input.data.all (fun c => c.isWhitespace)

/-- The `Condition` enum of `src/condition.rs`: a `Select` plus polarity. -/
inductive Condition where
  | Yes (s : Select)
  | Not (s : Select)
  deriving Repr, DecidableEq

/-- Translation of `Condition::test` (src/condition.rs lines 19-24). -/
def Condition.test (c : Condition) (input : String) : Bool :=
  match c with
  | .Yes s => s.select input
  | .Not s => !(s.select input)

/-- Applying the `not` prefix to an already-built condition flips its
polarity (`Condition::new(select, not)` with the opposite flag). -/
def Condition.negate : Condition → Condition
  | .Yes s => .Not s
  | .Not s => .Yes s

/-- Spec-side statement that a length satisfies all present bounds. -/
def lenBoundsSat (min max : Option Nat) (len : Nat) : Prop :=
  (min.elim True (· ≤ len)) ∧ (max.elim True (len ≤ ·))

/-- Spec-side statement that a numeric value satisfies all present bounds
(under the source's widening comparison). -/
def numBoundsSat (min max : Option NumV) (v : NumV) : Prop :=
  (min.elim True (fun m => m.toRat ≤ v.toRat)) ∧ (max.elim True (fun m => v.toRat ≤ m.toRat))

/-- C2 counterexample: for the num range with both bounds absent, every
value vacuously satisfies all present bounds, yet the unparsable input
"abc" makes the condition false — `Select::select` returns
`parse().map(..).unwrap_or(false)`, so parse failure wins over the vacuous
bounds, contradicting the claim's characterization. -/
theorem num_range_vacuous_bounds_counterexample :
    (∀ v : NumV, numBoundsSat none none v)
    ∧ NumV.fromStr "abc" = none
    ∧ Condition.test (Condition.Yes (Select.NumRange none none)) "abc" = false := by
  refine ⟨fun v => ⟨trivial, trivial⟩, by decide, by decide⟩

/-- C2 (amended): a `len` range condition is true iff the character count
satisfies all present bounds; a `num` range condition is true iff the input
parses as a number AND that value satisfies all present bounds (so with
both bounds absent an unparsable input yields false, not vacuous truth);
and negation is an exact involution — `Not` is the exact boolean complement
of `Yes`, so flipping the polarity twice evaluates identically to the
original condition, for every condition and every input. -/
theorem cond_range_characterization (lmin lmax : Option Nat) (nmin nmax : Option NumV) (s : String) :
    (Condition.test (Condition.Yes (Select.TextLenRange lmin lmax)) s = true
      ↔ lenBoundsSat lmin lmax s.data.length)
    ∧ (Condition.test (Condition.Yes (Select.NumRange nmin nmax)) s = true
      ↔ ∃ v, NumV.fromStr s = some v ∧ numBoundsSat nmin nmax v)
    ∧ (∀ c : Condition, Condition.test (c.negate.negate) s = Condition.test c s)
    ∧ (∀ sel : Select, Condition.test (Condition.Not sel) s = !(Condition.test (Condition.Yes sel) s)) := by
  refine ⟨?_, ?_, ?_, ?_⟩
  · cases lmin <;> cases lmax <;>
      simp [Condition.test, Select.select, lenBoundsSat, Option.elim]
  · cases h : NumV.fromStr s with
    | none =>
      simp [Condition.test, Select.select, h]
    | some v =>
      cases nmin <;> cases nmax <;>
        simp [Condition.test, Select.select, h, numBoundsSat, NumV.le, Option.elim]
  · intro c; cases c <;> rfl
  · intro sel; rfl

/-- C3: evaluating a numeric condition against an input that parses as
neither an integer nor a finite float yields `false` (a definite boolean,
never an error: the embedding is a total function into `Bool`), and the
`not` polarity then inverts that boolean; in particular `not num 1,5` is
`true` on every such input. -/
theorem num_cond_unparsable_false (s : String) (h : NumV.fromStr s = none) :
    (∀ nmin nmax, Condition.test (Condition.Yes (Select.NumRange nmin nmax)) s = false)
    ∧ (∀ spec, Condition.test (Condition.Yes (Select.NumSpec spec)) s = false)
    ∧ (∀ nmin nmax, Condition.test (Condition.Not (Select.NumRange nmin nmax)) s = true)
    ∧ Condition.test
        (Condition.Not (Select.NumRange (some (NumV.integer 1)) (some (NumV.integer 5)))) s = true := by
  refine ⟨?_, ?_, ?_, ?_⟩ <;>
    simp [Condition.test, Select.select, h]

/-- C3 witness: the input "abc" parses as neither integer nor finite float,
and `not num 1,5` evaluates to `true` on it. -/
theorem num_cond_unparsable_false_witness :
    NumV.fromStr "abc" = none
    ∧ Condition.test
        (Condition.Not (Select.NumRange (some (NumV.integer 1)) (some (NumV.integer 5)))) "abc" = true :=
  ⟨by decide, (num_cond_unparsable_false "abc" (by decide)).2.2.2⟩

/- ********************************************************************
   Trim operator family, from `src/op/trim.rs` (strings as `List Char`).
   ******************************************************************** -/

/-- The process-wide `Config` flags (src/config.rs). -/
inductive Config where
  | Version
  | Help
  | Verbose
  | DryRun
  | Nocase
  | SkipErr
  | Token
  deriving Repr, DecidableEq

/-- Translation of `is_nocase` (src/config.rs lines 43-46). -/
def is_nocase (nocase : Bool) (configs : List Config) : Bool :=
  nocase || configs.contains Config.Nocase

/-- The `TrimMode` enum of `src/op/trim.rs`. -/
inductive TrimMode where
  | All
  | Left
  | Right
  deriving Repr, DecidableEq

/-- The `TrimArg` struct of `src/op/trim.rs` (field `pattern` carries the
same invariants as the source: lowercased when `nocase`, deduplicated when
`char_mode`). -/
structure TrimArg where
  trim_mode : TrimMode
  pattern : Option (List Char)
  char_mode : Bool
  nocase : Bool
  deriving Repr, DecidableEq

/-- First-occurrence character dedup,
`s.chars().filter(|&c| seen.insert(c)).collect()` with its running set. -/
def dedupFirstAux (seen : List Char) : List Char → List Char
  | [] => []
  | c :: r => if seen.contains c then dedupFirstAux seen r else c :: dedupFirstAux (c :: seen) r

/-- Deduplicate a pattern, keeping first occurrences in order. -/
def dedupFirst (cs : List Char) : List Char := dedupFirstAux [] cs

/-- Translation of `TrimArg::new` (src/op/trim.rs lines 23-47). -/
def TrimArg.new (trim_mode : TrimMode) (pattern : Option (List Char))
    (char_mode nocase : Bool) : TrimArg :=
  { trim_mode := trim_mode
    pattern :=
      let pattern := if nocase then pattern.map (List.map asciiLowerChar) else pattern
      if char_mode then pattern.map dedupFirst else pattern
    char_mode := char_mode
    nocase := nocase }

/-- Rust `str::strip_prefix(pattern).unwrap_or(input)`: remove one leading
occurrence of the whole pattern if it is literally there. -/
def stripPrefixOr (s p : List Char) : List Char :=
  if p.isPrefixOf s then s.drop p.length else s

/-- Rust `str::strip_suffix(pattern).unwrap_or(input)`. -/
def stripSuffixOr (s p : List Char) : List Char :=
  if p.isSuffixOf s then s.take (s.length - p.length) else s

/-- Translation of `TrimArg::trim_start_char` (src/op/trim.rs 155-158):
the source locates the first index whose character is not in the pattern
set and slices there, i.e. it drops the maximal prefix of pattern chars. -/
def TrimArg.trim_start_char (to_trim pattern : List Char) : List Char :=
  to_trim.dropWhile (fun c => pattern.contains c)

/-- Translation of `TrimArg::trim_end_char` (src/op/trim.rs 160-163):
symmetric, via `rfind`, dropping the maximal suffix of pattern chars. -/
def TrimArg.trim_end_char (to_trim pattern : List Char) : List Char :=
  (to_trim.reverse.dropWhile (fun c => pattern.contains c)).reverse

/-- Translation of `TrimArg::trim_start_char_nocase` (src/op/trim.rs
129-139): each subject character is ASCII-lowercased before the set test
(the pattern is already lowercase by construction). -/
def TrimArg.trim_start_char_nocase (to_trim pattern : List Char) : List Char :=
  to_trim.dropWhile (fun c => pattern.contains (asciiLowerChar c))

/-- Translation of `TrimArg::trim_end_char_nocase` (src/op/trim.rs 141-153). -/
def TrimArg.trim_end_char_nocase (to_trim pattern : List Char) : List Char :=
  (to_trim.reverse.dropWhile (fun c => pattern.contains (asciiLowerChar c))).reverse

/-- Case-folded prefix strip: walks subject and pattern together,
ASCII-lowercasing the subject character (the pattern is already
lowercase); `none` when the subject is too short or a character differs
(the caller then keeps the subject unchanged).  This is the loop of
`TrimArg::trim_start_str_nocase` (src/op/trim.rs 95-110). -/
def matchStripNocase : List Char → List Char → Option (List Char)
  | t, [] => some t
  | [], _ :: _ => none
  | tc :: t', pc :: q' => if asciiLowerChar tc = pc then matchStripNocase t' q' else none

/-- Translation of `TrimArg::trim_start_str_nocase`. -/
def TrimArg.trim_start_str_nocase (to_trim pattern : List Char) : List Char :=
  (matchStripNocase to_trim pattern).getD to_trim

/-- Translation of `TrimArg::trim_end_str_nocase` (src/op/trim.rs 112-127):
the source walks both strings from the back, equivalently the prefix walk
on the reversals. -/
def TrimArg.trim_end_str_nocase (to_trim pattern : List Char) : List Char :=
  ((matchStripNocase to_trim.reverse pattern.reverse).map List.reverse).getD to_trim

/-- Rust `str::trim()`: remove leading and trailing whitespace (the
default pattern-less trim; Lean's `Char.isWhitespace` covers the ASCII
part of Rust's Unicode `char::is_whitespace`, which no claim exceeds). -/
def trimBlank (s : List Char) : List Char :=
  ((s.dropWhile Char.isWhitespace).reverse.dropWhile Char.isWhitespace).reverse

/-- Translation of `TrimArg::trim` (src/op/trim.rs lines 49-93).  The
source's final `if trimmed == &to_trim { to_trim } else { trimmed.to_owned() }`
only avoids an allocation and is value-level identity, so it is omitted. -/
def TrimArg.trim (arg : TrimArg) (to_trim : List Char) (configs : List Config) : List Char :=
  match arg.pattern with
  | some pattern =>
    if pattern = [] then trimBlank to_trim
    else if arg.char_mode then
      if is_nocase arg.nocase configs then
        match arg.trim_mode with
        | .All => TrimArg.trim_end_char_nocase (TrimArg.trim_start_char_nocase to_trim pattern) pattern
        | .Left => TrimArg.trim_start_char_nocase to_trim pattern
        | .Right => TrimArg.trim_end_char_nocase to_trim pattern
      else
        match arg.trim_mode with
        | .All => TrimArg.trim_end_char (TrimArg.trim_start_char to_trim pattern) pattern
        | .Left => TrimArg.trim_start_char to_trim pattern
        | .Right => TrimArg.trim_end_char to_trim pattern
    else
      if is_nocase arg.nocase configs then
        match arg.trim_mode with
        | .All => TrimArg.trim_end_str_nocase (TrimArg.trim_start_str_nocase to_trim pattern) pattern
        | .Left => TrimArg.trim_start_str_nocase to_trim pattern
        | .Right => TrimArg.trim_end_str_nocase to_trim pattern
      else
        match arg.trim_mode with
        | .All => stripSuffixOr (stripPrefixOr to_trim pattern) pattern
        | .Left => stripPrefixOr to_trim pattern
        | .Right => stripSuffixOr to_trim pattern
  | none => trimBlank to_trim

/-- C7: trimming "ab" from "abab" (both ends, case-sensitive) empties the
string in character-set mode and also in substring mode (the prefix strip
leaves "ab", which the suffix strip then removes); trimming "ba" in
substring mode leaves "abab" unchanged (neither boundary literally starts
or ends with "ba"); and trimming "ba" in character-set mode still empties
it, since it denotes the same character set as "ab". -/
theorem trim_abab_examples :
    (TrimArg.new TrimMode.All (some "ab".data) true false).trim "abab".data [] = []
    ∧ (TrimArg.new TrimMode.All (some "ab".data) false false).trim "abab".data [] = []
    ∧ (TrimArg.new TrimMode.All (some "ba".data) false false).trim "abab".data [] = "abab".data
    ∧ (TrimArg.new TrimMode.All (some "ba".data) true false).trim "abab".data [] = [] := by
  refine ⟨by decide, by decide, by decide, by decide⟩

/- ********************************************************************
   Chunked join, from `src/op/mod.rs` lines 333-372.

   `ChunkJoin::next` pulls up to `group_size` items from its source into a
   buffer; an empty buffer ends the stream, otherwise the buffer is joined
   as `prefix + chunk.join(delimiter) + postfix`.  We model the upstream
   as a `List String` and run the iterator to exhaustion; the run is
   written structurally on a fuel that decreases by one per emitted chunk
   (the source list length always suffices: each emitted chunk consumes at
   least one upstream item).
   ******************************************************************** -/

/-- The `JoinInfo` struct of `src/op/mod.rs` (fields `prefix`/`postfix`
are named `pre`/`post` here: `prefix`/`postfix` are Lean keywords). -/
structure JoinInfo where
  delimiter : String
  pre : String
  post : String
  deriving Repr, DecidableEq

/-- Repeated `ChunkJoin::next` with explicit fuel: each step takes the
next `n` items (all remaining ones if fewer), emits their join and
recurses on the rest; an empty buffer (empty source, or `group_size` 0)
yields `None` and ends the run. -/
def chunkJoinGo (ji : JoinInfo) (n : Nat) : Nat → List String → List String
  | _, [] => []
  | 0, _ :: _ => []
  | fuel + 1, x :: xs =>
    if n = 0 then []
    else
      (ji.pre ++ String.intercalate ji.delimiter ((x :: xs).take n) ++ ji.post)
        :: chunkJoinGo ji n fuel ((x :: xs).drop n)

/-- The whole output of the `ChunkJoin` iterator over a finite upstream. -/
def chunkJoinRun (ji : JoinInfo) (n : Nat) (l : List String) : List String :=
  chunkJoinGo ji n l.length l

/-- Reference grouping: the upstream split into consecutive chunks of `n`
(the last one possibly shorter), same recursion shape, no joining. -/
def listChunksGo {α : Type} (n : Nat) : Nat → List α → List (List α)
  | _, [] => []
  | 0, _ :: _ => []
  | fuel + 1, x :: xs =>
    if n = 0 then []
    else (x :: xs).take n :: listChunksGo n fuel ((x :: xs).drop n)

/-- The consecutive chunks of `n` of a list. -/
def listChunks {α : Type} (n : Nat) (l : List α) : List (List α) :=
  listChunksGo n l.length l

/-- Chunk sizes at the level of plain numbers: the sizes of the chunks of
an `m`-element list are `n, n, …, r` with `0 < r ≤ n`. -/
def natChunksGo (n : Nat) : Nat → Nat → List Nat
  | 0, _ => []
  | fuel + 1, m =>
    if n = 0 then []
    else if m = 0 then []
    else min n m :: natChunksGo n fuel (m - n)

/-- Chunk sizes of an `m`-element list grouped by `n`. -/
def natChunks (n m : Nat) : List Nat := natChunksGo n m m

/-- Core induction for the chunked join: with enough fuel the run equals
the joined reference chunks, the chunks concatenate back to the upstream,
every chunk is nonempty with at most `n` items, and the chunk sizes are
`natChunksGo` of the length. -/
theorem chunkJoinGo_spec :
    ∀ (fuel : Nat) (l : List String) (ji : JoinInfo) (n : Nat),
      0 < n → l.length ≤ fuel →
      chunkJoinGo ji n fuel l
          = (listChunksGo n fuel l).map
              (fun c => ji.pre ++ String.intercalate ji.delimiter c ++ ji.post)
      ∧ (listChunksGo n fuel l).flatten = l
      ∧ (∀ c ∈ listChunksGo n fuel l, c ≠ [] ∧ c.length ≤ n)
      ∧ (listChunksGo n fuel l).map List.length = natChunksGo n fuel l.length := by
  intro fuel
  induction fuel with
  | zero =>
    intro l ji n hn hlen
    have : l = [] := List.length_eq_zero.mp (by omega)
    subst this
    refine ⟨rfl, rfl, by simp [listChunksGo], rfl⟩
  | succ fuel ih =>
    intro l ji n hn hlen
    match l with
    | [] =>
      refine ⟨rfl, rfl, by simp [listChunksGo], ?_⟩
      simp [listChunksGo, natChunksGo, Nat.pos_iff_ne_zero.mp hn]
    | x :: xs =>
      have hn' : ¬ n = 0 := Nat.pos_iff_ne_zero.mp hn
      have hlen' : ((x :: xs).drop n).length ≤ fuel := by
        simp only [List.length_drop, List.length_cons] at *
        omega
      obtain ⟨ih1, ih2, ih3, ih4⟩ := ih ((x :: xs).drop n) ji n hn hlen'
      refine ⟨?_, ?_, ?_, ?_⟩
      · simp only [chunkJoinGo, listChunksGo, if_neg hn', List.map_cons]
        rw [ih1]
      · simp only [listChunksGo, if_neg hn', List.flatten_cons]
        rw [ih2, List.take_append_drop]
      · simp only [listChunksGo, if_neg hn']
        intro c hc
        rcases List.mem_cons.mp hc with hc | hc
        · subst hc
          constructor
          · have hlt : 0 < (List.take n (x :: xs)).length := by
              simp only [List.length_take, List.length_cons]
              omega
            intro hnil
            rw [hnil] at hlt
            simp at hlt
          · simp only [List.length_take, List.length_cons]
            omega
        · exact ih3 c hc
      · simp only [listChunksGo, if_neg hn', List.map_cons, List.length_take]
        have hm : ¬ (x :: xs).length = 0 := by simp
        rw [natChunksGo, if_neg hn', if_neg hm] -- unfold one step of the size list
        rw [ih4]
        simp [List.length_drop]

/-- C8: for any positive batch size `n`, the chunked join groups every `n`
consecutive upstream items into one output item `prefix + items.join(delimiter)
+ postfix`; a final partial chunk (fewer than `n` items, but at least one)
is still emitted; the chunks partition the upstream in order, and their
sizes follow `natChunks` — in particular batch 3 over 7 items gives the
sizes `[3, 3, 1]` (see the witness). -/
theorem chunk_join_groups (ji : JoinInfo) (n : Nat) (l : List String) (hn : 0 < n) :
    chunkJoinRun ji n l
        = (listChunks n l).map
            (fun c => ji.pre ++ String.intercalate ji.delimiter c ++ ji.post)
    ∧ (listChunks n l).flatten = l
    ∧ (∀ c ∈ listChunks n l, c ≠ [] ∧ c.length ≤ n)
    ∧ (listChunks n l).map List.length = natChunks n l.length :=
  chunkJoinGo_spec l.length l ji n hn le_rfl

/-- C8 witness: batch size 3 over the 7 items a…g with delimiter ", ",
prefix "[" and postfix "]" produces exactly 3 output items, built from
chunks of sizes 3, 3 and 1. -/
theorem chunk_join_groups_witness :
    0 < 3
    ∧ natChunks 3 7 = [3, 3, 1]
    ∧ chunkJoinRun ⟨", ", "[", "]"⟩ 3 ["a", "b", "c", "d", "e", "f", "g"]
        = ["[a, b, c]", "[d, e, f]", "[g]"]
    ∧ chunkJoinRun ⟨", ", "[", "]"⟩ 3 ["a", "b", "c", "d", "e", "f", "g"]
        = (listChunks 3 ["a", "b", "c", "d", "e", "f", "g"]).map
            (fun c => "[" ++ String.intercalate ", " c ++ "]") :=
  ⟨by decide, by decide, by decide,
    (chunk_join_groups ⟨", ", "[", "]"⟩ 3 ["a", "b", "c", "d", "e", "f", "g"] (by decide)).1⟩

/- ********************************************************************
   The `:case` switch operator, from `src/op/mod.rs` lines 200-211.

   The closure mutates the string's UTF-8 bytes in place:
   `b'A'..=b'Z' => *b += 32`, `b'a'..=b'z' => *b -= 32`, all other bytes
   untouched (`b'a' - b'A' = 32`).  Strings are modelled as their byte
   lists.  `utf8Valid` encodes the standard UTF-8 well-formedness table
   (RFC 3629), which is exactly Rust's `str` invariant that the `unsafe`
   block in the source must preserve.
   ******************************************************************** -/

/-- The per-byte action of the `:case` switch loop. -/
def switchCaseByte (b : Nat) : Nat :=
  if 65 ≤ b ∧ b ≤ 90 then b + 32
  else if 97 ≤ b ∧ b ≤ 122 then b - 32
  else b

/-- The `:case` switch over a whole byte string. -/
def caseSwitch (bytes : List Nat) : List Nat := bytes.map switchCaseByte

/-- Range check of one continuation byte. -/
def contOk (lo hi b : Nat) : Bool := decide (lo ≤ b ∧ b ≤ hi)

/-- UTF-8 validity as a state machine over the byte list, after the table
of RFC 3629 (the invariant of Rust's `str`): the state is the number of
still-expected continuation bytes together with the allowed range of the
next one.  ASCII bytes stand alone; lead bytes `C2..DF`, `E0..EF`,
`F0..F4` open sequences of 1, 2 and 3 continuation bytes in `80..BF`,
with the narrowed first-continuation ranges that exclude overlong forms
(`E0`, `F0`), surrogates (`ED`) and values above `U+10FFFF` (`F4`). -/
def utf8Go : Nat → Nat → Nat → List Nat → Bool
  | 0, _, _, [] => true
  | 0, _, _, b :: rest =>
    if b ≤ 0x7F then utf8Go 0 0 0 rest
    else if 0xC2 ≤ b ∧ b ≤ 0xDF then utf8Go 1 0x80 0xBF rest
    else if 0xE0 ≤ b ∧ b ≤ 0xEF then
      utf8Go 2 (if b = 0xE0 then 0xA0 else 0x80) (if b = 0xED then 0x9F else 0xBF) rest
    else if 0xF0 ≤ b ∧ b ≤ 0xF4 then
      utf8Go 3 (if b = 0xF0 then 0x90 else 0x80) (if b = 0xF4 then 0x8F else 0xBF) rest
    else false
  | _ + 1, _, _, [] => false
  | need + 1, lo, hi, b :: rest => contOk lo hi b && utf8Go need 0x80 0xBF rest

/-- UTF-8 validity of a whole byte sequence (no pending continuation). -/
def utf8Valid (l : List Nat) : Bool := utf8Go 0 0 0 l

/-- Bytes at or above 128 are untouched by the switch. -/
theorem switchCaseByte_ge_128 (b : Nat) (h : 128 ≤ b) : switchCaseByte b = b := by
  simp only [switchCaseByte]
  rw [if_neg (by omega), if_neg (by omega)]

/-- Bytes below 128 stay below 128. -/
theorem switchCaseByte_lt_128 (b : Nat) (h : b < 128) : switchCaseByte b < 128 := by
  simp only [switchCaseByte]
  split
  · omega
  · split
    · omega
    · omega

/-- The switch is an involution on every byte. -/
theorem switchCaseByte_invol (b : Nat) : switchCaseByte (switchCaseByte b) = b := by
  by_cases h1 : 65 ≤ b ∧ b ≤ 90
  · have e1 : switchCaseByte b = b + 32 := by simp only [switchCaseByte]; rw [if_pos h1]
    rw [e1]
    simp only [switchCaseByte]
    rw [if_neg (by omega), if_pos (by omega)]
    omega
  · by_cases h2 : 97 ≤ b ∧ b ≤ 122
    · have e1 : switchCaseByte b = b - 32 := by
        simp only [switchCaseByte]; rw [if_neg h1, if_pos h2]
      rw [e1]
      simp only [switchCaseByte]
      rw [if_pos (by omega)]
      omega
    · have e1 : switchCaseByte b = b := by
        simp only [switchCaseByte]; rw [if_neg h1, if_neg h2]
      rw [e1, e1]

/-- A continuation-range test with lower bound at least 128 cannot tell a
switched byte from the original. -/
theorem contOk_switch (lo hi bc : Nat) (hlo : 128 ≤ lo) :
    contOk lo hi (switchCaseByte bc) = contOk lo hi bc := by
  rcases Nat.lt_or_ge bc 128 with h | h
  · have h2 := switchCaseByte_lt_128 bc h
    simp only [contOk]
    rw [decide_eq_decide]
    omega
  · rw [switchCaseByte_ge_128 bc h]

/-- Switching case cannot change the verdict of the UTF-8 state machine:
ASCII bytes stay ASCII and take the same branch, every non-ASCII byte is
untouched, and every continuation-range lower bound in use is ≥ 128. -/
theorem utf8Go_caseSwitch :
    ∀ (l : List Nat) (need lo hi : Nat), need = 0 ∨ 128 ≤ lo →
      utf8Go need lo hi (caseSwitch l) = utf8Go need lo hi l := by
  intro l
  induction l with
  | nil =>
    intro need lo hi _
    cases need <;> rfl
  | cons b rest ih =>
    intro need lo hi h
    cases need with
    | zero =>
      rw [show caseSwitch (b :: rest) = switchCaseByte b :: caseSwitch rest from rfl]
      by_cases hb : b ≤ 0x7F
      · have hb' : switchCaseByte b ≤ 0x7F := by
          have := switchCaseByte_lt_128 b (by omega)
          omega
        simp only [utf8Go]
        rw [if_pos hb', if_pos hb]
        exact ih 0 0 0 (Or.inl rfl)
      · have hsb : switchCaseByte b = b := switchCaseByte_ge_128 b (by omega)
        rw [hsb]
        simp only [utf8Go]
        rw [if_neg hb, if_neg hb]
        by_cases h2 : 0xC2 ≤ b ∧ b ≤ 0xDF
        · rw [if_pos h2, if_pos h2]
          exact ih 1 0x80 0xBF (Or.inr (by omega))
        · rw [if_neg h2, if_neg h2]
          by_cases h3 : 0xE0 ≤ b ∧ b ≤ 0xEF
          · rw [if_pos h3, if_pos h3]
            exact ih 2 _ _ (Or.inr (by split <;> omega))
          · rw [if_neg h3, if_neg h3]
            by_cases h4 : 0xF0 ≤ b ∧ b ≤ 0xF4
            · rw [if_pos h4, if_pos h4]
              exact ih 3 _ _ (Or.inr (by split <;> omega))
            · rw [if_neg h4, if_neg h4]
    | succ m =>
      have hlo : 128 ≤ lo := by omega
      rw [show caseSwitch (b :: rest) = switchCaseByte b :: caseSwitch rest from rfl]
      simp only [utf8Go]
      rw [contOk_switch _ _ _ hlo, ih m 0x80 0xBF (Or.inr (by omega))]

/-- Switching case maps valid UTF-8 to valid UTF-8 and invalid to invalid. -/
theorem utf8Valid_caseSwitch (l : List Nat) :
    utf8Valid (caseSwitch l) = utf8Valid l :=
  utf8Go_caseSwitch l 0 0 0 (Or.inl rfl)

/-- C10: the `:case` switch is an involution (applying it twice returns the
original byte string); one application maps each ASCII letter byte to the
opposite case (`A–Z` ↔ `a–z`, a distance of 32) and leaves every other
byte — including all bytes ≥ 128 of non-ASCII UTF-8 sequences — unchanged;
the byte length is preserved; and UTF-8 validity is preserved exactly
(valid in, valid out). -/
theorem case_switch_involution (l : List Nat) :
    caseSwitch (caseSwitch l) = l
    ∧ (caseSwitch l).length = l.length
    ∧ (∀ b, (65 ≤ b ∧ b ≤ 90 → switchCaseByte b = b + 32)
        ∧ (97 ≤ b ∧ b ≤ 122 → switchCaseByte b = b - 32)
        ∧ (¬(65 ≤ b ∧ b ≤ 90) → ¬(97 ≤ b ∧ b ≤ 122) → switchCaseByte b = b))
    ∧ utf8Valid (caseSwitch l) = utf8Valid l := by
  refine ⟨?_, ?_, ?_, utf8Valid_caseSwitch l⟩
  · simp only [caseSwitch, List.map_map]
    have hcomp : switchCaseByte ∘ switchCaseByte = id := by
      funext b
      exact switchCaseByte_invol b
    rw [hcomp, List.map_id]
  · simp [caseSwitch]
  · intro b
    refine ⟨?_, ?_, ?_⟩
    · intro h; simp only [switchCaseByte]; rw [if_pos h]
    · intro h; simp only [switchCaseByte]; rw [if_neg (by omega), if_pos h]
    · intro h1 h2; simp only [switchCaseByte]; rw [if_neg h1, if_neg h2]

/-- C10 witness: the byte string "hZ!é" (UTF-8 `[104, 90, 33, 195, 169]`)
round-trips under the switch, stays valid UTF-8, and the letter cases are
mapped as claimed at representative bytes. -/
theorem case_switch_involution_witness :
    caseSwitch (caseSwitch [104, 90, 33, 195, 169]) = [104, 90, 33, 195, 169]
    ∧ utf8Valid [104, 90, 33, 195, 169] = true
    ∧ caseSwitch [104, 90, 33, 195, 169] = [72, 122, 33, 195, 169]
    ∧ utf8Valid (caseSwitch [104, 90, 33, 195, 169]) = utf8Valid [104, 90, 33, 195, 169]
    ∧ (65 ≤ 72 ∧ 72 ≤ 90)
    ∧ switchCaseByte 72 = 72 + 32 :=
  ⟨(case_switch_involution [104, 90, 33, 195, 169]).1,
    by decide, by decide,
    (case_switch_involution [104, 90, 33, 195, 169]).2.2.2,
    by decide,
    ((case_switch_involution [104, 90, 33, 195, 169]).2.2.1 72).1 (by decide)⟩

/- ********************************************************************
   Regex conditions, from `Select::new_reg_match` (src/condition.rs
   132-137: the pattern is wrapped as `\A(?:pattern)\z`) and the
   `RegMatch` arm of `Select::select` (line 181: `regex.is_match(input)`).

   The matching engine itself is the external `regex` crate, not code of
   this repository, so its semantics is modelled from the spec: a regular
   expression syntax tree and a span-matching relation `RMatch s r i j`
   ("`r` matches the characters `i..j` of `s`").  `\A`/`\z` match only at
   the very start/end of the haystack regardless of flags; `^`/`$` carry
   the multiline flag in force where they appear (`(?m)` written inside
   the pattern), a multiline `$` also matching just before an embedded
   newline; `.` never matches a newline.  `is_match` asks for some span.
   ******************************************************************** -/

/-- Regular expression syntax (one constructor per construct the model
needs; a non-capturing group `(?:…)` has no semantic content and is the
identity on trees). -/
inductive RegEx where
  | eps
  | lit (c : Char)
  | cls (cs : List Char)
  | dot
  | cat (a b : RegEx)
  | alt (a b : RegEx)
  | star (a : RegEx)
  | textStart
  | textEnd
  | lineStart (m : Bool)
  | lineEnd (m : Bool)
  deriving Repr, DecidableEq

/-- Modelled from the spec: the span-matching relation of the `regex`
crate.  `RMatch s r i j` holds when `r` matches exactly the characters
`i..j` of the haystack `s`. -/
inductive RMatch (s : List Char) : RegEx → Nat → Nat → Prop where
  | eps (i : Nat) (h : i ≤ s.length) : RMatch s .eps i i
  | lit (c : Char) (i : Nat) (h : i < s.length) (he : s.get ⟨i, h⟩ = c) :
      RMatch s (.lit c) i (i + 1)
  | cls (cs : List Char) (i : Nat) (h : i < s.length) (he : s.get ⟨i, h⟩ ∈ cs) :
      RMatch s (.cls cs) i (i + 1)
  | dot (i : Nat) (h : i < s.length) (hn : s.get ⟨i, h⟩ ≠ '\n') : RMatch s .dot i (i + 1)
  | cat {a b : RegEx} {i j k : Nat} : RMatch s a i j → RMatch s b j k → RMatch s (.cat a b) i k
  | altL {a b : RegEx} {i j : Nat} : RMatch s a i j → RMatch s (.alt a b) i j
  | altR {a b : RegEx} {i j : Nat} : RMatch s b i j → RMatch s (.alt a b) i j
  | starNil (a : RegEx) (i : Nat) (h : i ≤ s.length) : RMatch s (.star a) i i
  | starCons {a : RegEx} {i j k : Nat} :
      RMatch s a i j → RMatch s (.star a) j k → RMatch s (.star a) i k
  | textStart : RMatch s .textStart 0 0
  | textEnd : RMatch s .textEnd s.length s.length
  | lineStartZero (m : Bool) : RMatch s (.lineStart m) 0 0
  | lineStartMid (i : Nat) (hi : 0 < i) (hle : i ≤ s.length) (h : i - 1 < s.length)
      (hn : s.get ⟨i - 1, h⟩ = '\n') : RMatch s (.lineStart true) i i
  | lineEndEnd (m : Bool) : RMatch s (.lineEnd m) s.length s.length
  | lineEndMid (i : Nat) (h : i < s.length) (hn : s.get ⟨i, h⟩ = '\n') :
      RMatch s (.lineEnd true) i i

/-- `Regex::is_match`: some span of the haystack matches. -/
def isMatch (r : RegEx) (s : List Char) : Prop := ∃ i j, RMatch s r i j

/-- Translation of `Select::new_reg_match`: the user pattern is wrapped as
`\A(?:pattern)\z` before compilation. -/
def wrapReg (p : RegEx) : RegEx := .cat .textStart (.cat p .textEnd)

/-- C6: a `reg` condition is implicitly anchored to the whole item: for
every pattern and every input, the wrapped pattern `\A(?:p)\z` has a match
somewhere in the input exactly when `p` matches the entire input (so a
match of a proper substring alone never satisfies the condition); the
anchoring is equivalent to `^(?:p)$` with non-multiline outer anchors; and
a multiline `$` written inside the pattern (an explicit `(?m)` flag) can
still match just before an embedded newline, as witnessed on `"a\nb"`,
where the same pattern with a non-multiline `$` matches nothing. -/
theorem reg_anchored_whole_match (p : RegEx) (s : List Char) :
    (isMatch (wrapReg p) s ↔ RMatch s p 0 s.length)
    ∧ (isMatch (.cat (.lineStart false) (.cat p (.lineEnd false))) s ↔ isMatch (wrapReg p) s)
    ∧ RMatch "a\nb".data
        (wrapReg (.cat (.lit 'a') (.cat (.lineEnd true) (.cat (.lit '\n') (.lit 'b'))))) 0 3
    ∧ ¬ isMatch
        (wrapReg (.cat (.lit 'a') (.cat (.lineEnd false) (.cat (.lit '\n') (.lit 'b')))))
        "a\nb".data := by
  have hwrap : ∀ (q : RegEx), isMatch (wrapReg q) s ↔ RMatch s q 0 s.length := by
    intro q
    constructor
    · rintro ⟨i, j, m⟩
      cases m with
      | cat mA mRest =>
        cases mA
        cases mRest with
        | cat mP mEnd =>
          cases mEnd
          exact mP
    · intro m
      exact ⟨0, s.length, .cat .textStart (.cat m .textEnd)⟩
  refine ⟨hwrap p, ?_, ?_, ?_⟩
  · rw [hwrap p]
    constructor
    · rintro ⟨i, j, m⟩
      cases m with
      | cat mA mRest =>
        cases mA with
        | lineStartZero =>
          cases mRest with
          | cat mP mEnd =>
            cases mEnd
            exact mP
    · intro m
      exact ⟨0, s.length, .cat (.lineStartZero false) (.cat m (.lineEndEnd false))⟩
  · have mq : RMatch "a\nb".data
        (.cat (.lit 'a') (.cat (.lineEnd true) (.cat (.lit '\n') (.lit 'b')))) 0 3 := by
      refine .cat (.lit 'a' 0 (by decide) (by decide)) ?_
      refine .cat (.lineEndMid 1 (by decide) (by decide)) ?_
      exact .cat (.lit '\n' 1 (by decide) (by decide)) (.lit 'b' 2 (by decide) (by decide))
    have mEnd : RMatch "a\nb".data RegEx.textEnd 3 3 := .textEnd
    exact .cat .textStart (.cat mq mEnd)
  · rintro ⟨i, j, m⟩
    cases m with
    | cat mA mRest =>
      cases mA
      cases mRest with
      | cat mP mEnd =>
        cases mP with
        | cat mLit mTail =>
          cases mLit
          cases mTail with
          | cat mDollar mTail2 =>
            cases mDollar

/- ********************************************************************
   Command-line argument parsing (C9).
   The argv parser: `parse` in src/parse/args/mod.rs composed of
   `parse_input` (src/parse/args/input.rs), `parse_ops`/`parse_op`
   (src/parse/args/op.rs), `parse_output` (src/parse/args/output.rs) and
   `parse_cond` (src/parse/args/condition.rs), with token-level helpers
   from src/parse/token/mod.rs and src/parse/token/input.rs.
   Tokens are the `String` items of the argument iterator; the iterator
   is embedded as a `List String` threaded through each helper.
-/

/-- Errors of the argv parser: the `RpErr` variants of src/err.rs that are
reachable from `parse::args`. The `error`/`err` payloads in the source are
formatted messages from nom/std/regex; their exact text is not modelled, so
here they are fixed descriptive strings. -/
inductive RpErr where
  | MissingArg (cmd arg : String)
  | ArgParseErr (cmd arg arg_value error : String)
  | UnexpectedRemaining (cmd arg remaining : String)
  | UnknownArgs (args : List String)
  | ParseRegexErr (reg err : String)
deriving DecidableEq

/-- `str::to_ascii_lowercase`. -/
def lowerAscii (s : String) : String := ⟨s.data.map asciiLowerChar⟩

/-- `str::eq_ignore_ascii_case`. -/
def eq_ignore_ascii_case (a b : String) : Bool := decide (lowerAscii a = lowerAscii b)

/-- One character of a command token body (`cmd` in src/parse/token/mod.rs):
ASCII alphanumeric, `-`, `_` or `.`. -/
def isCmdChar (c : Char) : Bool := c.isAlphanum || c = '-' || c = '_' || c = '.'

/-- `whole_cmd_token(s).is_ok()`: the entire token is `:` followed by one or
more command-body characters. -/
def isCmdToken (s : String) : Bool :=
  match s.data with
  | ':' :: c :: cs => (c :: cs).all isCmdChar
  | _ => false

/-- `normal_escape` (src/parse/token/mod.rs): the replacement for an escaped
character, if it is in the escape set (all replacements are single
characters). -/
def normal_escape (c : Char) : Option Char :=
  if c = '\\' then some '\\'
  else if c = '0' then some (Char.ofNat 0)
  else if c = ' ' then some ' '
  else if c = Char.ofNat 34 then some (Char.ofNat 34)
  else if c = Char.ofNat 39 then some (Char.ofNat 39)
  else if c = 'r' then some (Char.ofNat 13)
  else if c = 'n' then some (Char.ofNat 10)
  else if c = 't' then some (Char.ofNat 9)
  else none

/-- The escape-transformation loop of `escaped_trans`
(src/parse/token/mod.rs): replace `\\c` by `normal_escape c` when defined,
keep the backslash and the character otherwise, keep a trailing backslash. -/
def escapeLoop : List Char → List Char
  | [] => []
  | [c] => [c]
  | c :: e :: rest =>
    if c = '\\' then
      match normal_escape e with
      | some r => r :: escapeLoop rest
      | none => '\\' :: e :: escapeLoop rest
    else c :: escapeLoop (e :: rest)

/-- Modelled from the spec: `escape_string` is imported from
`crate::parse::token` in src/parse/args/mod.rs but has no definition under
src/; per the spec's escape table and the in-src `escape` parser
(src/parse/token/mod.rs), it is the escape-transformation loop applied to
the whole token. -/
def escape_string (s : String) : String := ⟨escapeLoop s.data⟩

/-- `escape` (src/parse/args/mod.rs): escape-transform, then rewrite a
leading `::` to `:`. -/
def escapeArg (s : String) : String :=
  let a := escape_string s
  match a.data with
  | ':' :: ':' :: rest => ⟨':' :: rest⟩
  | _ => a

/-- `parse_arg`: take the next token unconditionally, escaped. -/
def parse_arg : List String → Option String × List String
  | [] => (none, [])
  | v :: rest => (some (escapeArg v), rest)

/-- `parse_opt_arg`: take the next token only if it is not command-shaped. -/
def parse_opt_arg : List String → Option String × List String
  | [] => (none, [])
  | v :: rest => if isCmdToken v then (none, v :: rest) else (some (escapeArg v), rest)

/-- `parse_arg0`: zero or more non-command tokens, escaped. -/
def parse_arg0 : List String → List String × List String
  | [] => ([], [])
  | v :: rest =>
    if isCmdToken v then ([], v :: rest)
    else
      let p := parse_arg0 rest
      (escapeArg v :: p.1, p.2)

/-- `parse_arg1`: like `parse_arg0` but at least one token, else MissingArg. -/
def parse_arg1 (cmd arg : String) (args : List String) :
    Except RpErr (List String × List String) :=
  match parse_arg0 args with
  | ([], _) => .error (.MissingArg cmd arg)
  | (v :: vs, rest) => .ok (v :: vs, rest)

/-- `parse_tag_nocase`: consume the next token iff it equals `tag` up to
ASCII case. -/
def parse_tag_nocase (tag : String) : List String → Bool × List String
  | [] => (false, [])
  | v :: rest => if eq_ignore_ascii_case v tag then (true, rest) else (false, v :: rest)

/-- Rust `str::parse::<usize>`: optional leading `+`, one or more ASCII
digits, value within usize range (64-bit build; overflow is an error). -/
def parseUsizeLit (s : String) : Option Nat :=
  let cs := match s.data with
    | '+' :: rest => rest
    | cs => cs
  match digitsVal? cs with
  | some n => if n < 2 ^ 64 then some n else none
  | none => none

/-- `parse_positive_usize`: peek the next token; consume it only if it
parses as a usize strictly greater than zero. -/
def parse_positive_usize : List String → Option Nat × List String
  | [] => (none, [])
  | v :: rest =>
    match parseUsizeLit v with
    | some n => if 0 < n then (some n, rest) else (none, v :: rest)
    | none => (none, v :: rest)

/-- Modelled from the spec: `parse_usize` is imported in
src/parse/args/op.rs but not defined under src/. Per its call sites and the
in-src tests (`:limit`/`:skip` error on a missing or non-usize count,
`:limit 0` and `:skip 0` succeed), it consumes the next token and parses it
as a Rust usize literal: MissingArg when the stream is empty, ArgParseErr
when the literal does not parse. -/
def parse_usize (cmd arg : String) : List String → Except RpErr (Nat × List String)
  | [] => .error (.MissingArg cmd arg)
  | v :: rest =>
    match parseUsizeLit v with
    | some n => .ok (n, rest)
    | none => .error (.ArgParseErr cmd arg v "invalid usize literal")

/-- `parse_as::<Integer>`: peek; consume iff the token parses as i64. -/
def parse_as_integer : List String → Option Int × List String
  | [] => (none, [])
  | v :: rest =>
    match parseInteger v with
    | some i => (some i, rest)
    | none => (none, v :: rest)

/-- `parse_as::<Float>`: peek; consume iff the token parses as f64
(including nan and the infinities). -/
def parse_as_float : List String → Option FloatV × List String
  | [] => (none, [])
  | v :: rest =>
    match parseFloat v with
    | some f => (some f, rest)
    | none => (none, v :: rest)

/-- The `[append][ crlf|lf]` flag scan shared verbatim by
`parse_general_file_info` (src/parse/args/mod.rs) and the output file
parser (src/parse/args/output.rs): an optional `append` tag, then an
optional `crlf`/`lf` tag, matched up to ASCII case. -/
def parse_file_flags : List String → (Bool × Option Bool) × List String
  | [] => ((false, none), [])
  | tk :: r2 =>
    if eq_ignore_ascii_case tk "append" then
      match r2 with
      | [] => ((true, none), [])
      | tk2 :: r3 =>
        if eq_ignore_ascii_case tk2 "crlf" then ((true, some true), r3)
        else if eq_ignore_ascii_case tk2 "lf" then ((true, some false), r3)
        else ((true, none), tk2 :: r3)
    else if eq_ignore_ascii_case tk "crlf" then ((false, some true), r2)
    else if eq_ignore_ascii_case tk "lf" then ((false, some false), r2)
    else ((false, none), tk :: r2)

/-- `parse_general_file_info`: `file[ append][ crlf|lf]`; the file name is
an optional non-command token (optional = true) or any next token. -/
def parse_general_file_info (optional : Bool) (args : List String) :
    Option (String × Bool × Option Bool) × List String :=
  match (if optional then parse_opt_arg args else parse_arg args) with
  | (none, r) => (none, r)
  | (some file, r) =>
    let p := parse_file_flags r
    (some (file, p.1.1, p.1.2), p.2)

/-- The input-clause keywords of `parse_input` (src/parse/args/input.rs);
`:clip` is behind cfg(windows) and absent from the default build modelled
here. -/
def inputKeywords : List String := [":in", ":file", ":of", ":gen", ":repeat"]

/-- The operator keywords of `parse_op` (src/parse/args/op.rs). -/
def opKeywords : List String :=
  [":peek", ":lower", ":upper", ":case", ":replace",
   ":trim", ":ltrim", ":rtrim", ":trimc", ":ltrimc", ":rtrimc",
   ":trimr", ":ltrimr", ":rtrimr",
   ":limit", ":skip", ":slice", ":uniq", ":join",
   ":drop", ":take", ":count", ":sort"]

/-- Value of a digit run (used by the nom prefix parsers below). -/
def digitsToNat (ds : List Char) : Nat :=
  ds.foldl (fun acc c => acc * 10 + (c.toNat - 48)) 0

/-- nom `usize`: one or more ASCII digits (no sign) with an overflow check
(the whole parser fails on overflow); returns the value and the unconsumed
rest. -/
def natPrefix (cs : List Char) : Option (Nat × List Char) :=
  let ds := cs.takeWhile Char.isDigit
  if ds = [] then none
  else if digitsToNat ds < 2 ^ 64 then some (digitsToNat ds, cs.drop ds.length)
  else none

/-- nom `i64` (re-exported as `parse_integer` in src/parse/token/mod.rs):
optional sign, one or more digits, overflow fails the parser; returns the
value, the recognized slice and the unconsumed rest. -/
def intPrefixV (cs : List Char) : Option (Int × List Char × List Char) :=
  let sp : List Char × List Char :=
    match cs with
    | '+' :: r => (['+'], r)
    | '-' :: r => (['-'], r)
    | r => ([], r)
  let ds := sp.2.takeWhile Char.isDigit
  if ds = [] then none
  else
    let n := digitsToNat ds
    if sp.1 = ['-'] then
      if n ≤ 2 ^ 63 then some (-(n : Int), sp.1 ++ ds, sp.2.drop ds.length) else none
    else
      if n ≤ 2 ^ 63 - 1 then some ((n : Int), sp.1 ++ ds, sp.2.drop ds.length) else none

/-- `i64::MAX` (`Integer::MAX`). -/
def i64Max : Int := 2 ^ 63 - 1

/-- `parse_range_in_gen` (src/parse/token/input.rs):
`<start>[,[<end>][,<step>]]` over i64; the step is verified nonzero (a zero
step fails that optional branch, which backtracks and leaves `,0` as
remaining input); defaults end = i64::MAX, step = 1. Returns the unconsumed
remainder and the triple, or a parse error. -/
def parse_range_in_gen (s : String) : Except String (String × (Int × Int × Int)) :=
  match intPrefixV s.data with
  | none => .error "can not parse start integer"
  | some (start, _, r1) =>
    match r1 with
    | ',' :: r2 =>
      let p2 : Option Int × List Char :=
        match intPrefixV r2 with
        | some (e, _, r) => (some e, r)
        | none => (none, r2)
      let p3 : Option Int × List Char :=
        match p2.2 with
        | ',' :: r5 =>
          match intPrefixV r5 with
          | some (st, _, r6) => if st = 0 then (none, ',' :: r5) else (some st, r6)
          | none => (none, ',' :: r5)
        | r => (none, r)
      .ok (⟨p3.2⟩, (start, (p2.1).getD i64Max, (p3.1).getD 1))
    | r => .ok (⟨r⟩, (start, i64Max, 1))

/-- Case-insensitive keyword prefix (nom `tag_no_case`). -/
def kwPrefix (kw : List Char) (cs : List Char) : Option (List Char × List Char) :=
  if kw.length ≤ cs.length ∧ (cs.take kw.length).map asciiLowerChar = kw then
    some (cs.take kw.length, cs.drop kw.length)
  else none

/-- Exponent part of nom's float grammar: `e|E`, optional sign, one or more
digits; `none` if absent or malformed (then no exponent is consumed). -/
def expPart (cs : List Char) : Option (List Char × List Char) :=
  match cs with
  | [] => none
  | c :: r =>
    if c = 'e' ∨ c = 'E' then
      let sp : List Char × List Char :=
        match r with
        | '+' :: rr => (['+'], rr)
        | '-' :: rr => (['-'], rr)
        | rr => ([], rr)
      let ds := sp.2.takeWhile Char.isDigit
      if ds = [] then none
      else some (c :: sp.1 ++ ds, sp.2.drop ds.length)
    else none

/-- Mantissa part of nom's float grammar: `digits[.digits]` or `.digits`. -/
def mantissaPart (cs : List Char) : Option (List Char × List Char) :=
  let ds := cs.takeWhile Char.isDigit
  if ds = [] then
    match cs with
    | '.' :: r2 =>
      let fs := r2.takeWhile Char.isDigit
      if fs = [] then none else some ('.' :: fs, r2.drop fs.length)
    | _ => none
  else
    match cs.drop ds.length with
    | '.' :: r2 =>
      let fs := r2.takeWhile Char.isDigit
      some (ds ++ '.' :: fs, r2.drop fs.length)
    | r1 => some (ds, r1)

/-- Prefix recognized by nom `double` (re-exported as `parse_float`):
optional sign, then `inf`/`infinity`/`nan` (ASCII case-insensitive) or a
mantissa with optional well-formed exponent. -/
def nomDoublePrefix (cs : List Char) : Option (List Char × List Char) :=
  let sp : List Char × List Char :=
    match cs with
    | '+' :: r => (['+'], r)
    | '-' :: r => (['-'], r)
    | r => ([], r)
  match kwPrefix "infinity".data sp.2 with
  | some (m, r) => some (sp.1 ++ m, r)
  | none =>
  match kwPrefix "inf".data sp.2 with
  | some (m, r) => some (sp.1 ++ m, r)
  | none =>
  match kwPrefix "nan".data sp.2 with
  | some (m, r) => some (sp.1 ++ m, r)
  | none =>
    match mantissaPart sp.2 with
    | none => none
    | some (m, r) =>
      match expPart r with
      | some (e, r2) => some (sp.1 ++ m ++ e, r2)
      | none => some (sp.1 ++ m, r)

/-- `parse_num` (src/parse/token/mod.rs): recognize a float prefix
(preferred, verified finite) or an integer prefix, then parse the
recognized slice as `Num` (integer grammar first). -/
def parse_num (cs : List Char) : Option (NumV × List Char) :=
  match nomDoublePrefix cs with
  | some (m, rest) =>
    if (parseFloat ⟨m⟩).elim false FloatV.isFinite then
      match NumV.fromStr ⟨m⟩ with
      | some n => some (n, rest)
      | none => none
    else
      match intPrefixV cs with
      | some (_, m2, rest2) =>
        match NumV.fromStr ⟨m2⟩ with
        | some n => some (n, rest2)
        | none => none
      | none => none
  | none =>
    match intPrefixV cs with
    | some (_, m2, rest2) =>
      match NumV.fromStr ⟨m2⟩ with
      | some n => some (n, rest2)
      | none => none
    | none => none

/-- `parse_cond_range(usize)` applied to a whole token with the caller's
`remaining.is_empty()` check: `[digits],[digits]` covering the entire
token. -/
def parse_cond_range_usize (s : String) : Option (Option Nat × Option Nat) :=
  let p1 : Option Nat × List Char :=
    match natPrefix s.data with
    | some (n, r) => (some n, r)
    | none => (none, s.data)
  match p1.2 with
  | ',' :: r2 =>
    let p2 : Option Nat × List Char :=
      match natPrefix r2 with
      | some (n, r) => (some n, r)
      | none => (none, r2)
    if p2.2 = [] then some (p1.1, p2.1) else none
  | _ => none

/-- `parse_cond_spec(usize)` on a whole token: a usize covering the entire
token. -/
def parse_cond_spec_usize (s : String) : Option Nat :=
  match natPrefix s.data with
  | some (n, []) => some n
  | _ => none

/-- `parse_cond_range(parse_num)` on a whole token. -/
def parse_cond_range_num (s : String) : Option (Option NumV × Option NumV) :=
  let p1 : Option NumV × List Char :=
    match parse_num s.data with
    | some (n, r) => (some n, r)
    | none => (none, s.data)
  match p1.2 with
  | ',' :: r2 =>
    let p2 : Option NumV × List Char :=
      match parse_num r2 with
      | some (n, r) => (some n, r)
      | none => (none, r2)
    if p2.2 = [] then some (p1.1, p2.1) else none
  | _ => none

/-- `parse_cond_spec(parse_num)` on a whole token. -/
def parse_cond_spec_num (s : String) : Option NumV :=
  match parse_num s.data with
  | some (n, []) => some n
  | _ => none

/-- `parse_cond_num` on a whole token (with the caller's remaining-empty
check): exactly `integer` or `float` up to ASCII case. -/
def parse_cond_num (s : String) : Option Bool :=
  if lowerAscii s = "integer" then some true
  else if lowerAscii s = "float" then some false
  else none

/-- Modelled from the spec: `parse_usize_range` is imported from
`crate::parse::token` in src/parse/args/op.rs but not defined under src/.
Per the `:slice` range grammar `[min],[max]` and the in-src tests
("0,5" parses, "-1,2" does not, "7,3" parses and is discarded as inverted
by the caller), it is the usize instance of the in-src `parse_cond_range`
combinator applied to the whole token. -/
def parse_usize_range (s : String) : Option SliceRange := parse_cond_range_usize s

/-- Modelled from the spec: regex compilation is done by the external
`regex` crate (`TrimArg::new_regex` / `Select::new_reg_match` propagate its
error as `RpErr::ParseRegexErr`). Only the accept/reject verdict is
modelled, by a syntactic scan: balanced groups, no dangling escape, and
character classes that are nonempty and closed (the in-src test pins "["
as invalid, "\\d+" as valid). Crate-specific rejections beyond these (for
example dangling quantifiers) are not modelled. -/
def regexScan : Bool → Bool → Nat → List Char → Bool
  | inClass, _, depth, [] => if inClass then false else decide (depth = 0)
  | inClass, hasItem, depth, c :: cs =>
    if c = '\\' then
      match cs with
      | [] => false
      | _ :: cs2 => regexScan inClass true depth cs2
    else if inClass then
      if c = ']' then hasItem && regexScan false false depth cs
      else regexScan true true depth cs
    else if c = '[' then regexScan true false depth cs
    else if c = '(' then regexScan false false (depth + 1) cs
    else if c = ')' then decide (depth ≠ 0) && regexScan false false (depth - 1) cs
    else regexScan false false depth cs

/-- Whether the external regex crate accepts the pattern (spec-modelled,
see `regexScan`). -/
def regexSyntaxOk (pat : String) : Bool := regexScan false false 0 pat.data

/-- `CaseArg` (crate::op). -/
inductive CaseArg where
  | Upper | Lower | Switch
deriving DecidableEq

/-- `TrimPos` (crate::op::trim). -/
inductive TrimPos where
  | Both | Head | Tail
deriving DecidableEq

/-- Parser-level trim argument: the data of the `TrimArg::new_blank` /
`new_str` / `new_chars` / `new_regex` call made by `parse_trim` /
`parse_trim_regex`. Those constructors are imported but not defined under
src/, so the constructed value is modelled by the constructor's arguments
(for `new_regex`, the uncompiled pattern). -/
inductive TrimArgP where
  | blank (pos : TrimPos)
  | str (pos : TrimPos) (pattern : String) (nocase : Bool)
  | chars (pos : TrimPos) (pattern : String) (nocase : Bool)
  | regex (pos : TrimPos) (pattern : String)
deriving DecidableEq

/-- Parser-level `Select` (crate::condition) as constructed by
`parse_cond`; `RegMatch` keeps the uncompiled pattern. -/
inductive SelectP where
  | TextLenRange (min max : Option Nat)
  | TextLenSpec (spec : Nat)
  | NumRange (min max : Option NumV)
  | NumSpec (spec : NumV)
  | NumClass (integer : Option Bool)
  | Text (mode : TextSelectMode)
  | RegMatch (pattern : String)

/-- `Condition` as built by `Condition::new(select, not)`. -/
inductive CondP where
  | Yes (sel : SelectP)
  | Not (sel : SelectP)

/-- `Condition::new`. -/
def mkCond (sel : SelectP) (not : Bool) : CondP :=
  if not then .Not sel else .Yes sel

/-- `TakeDropMode` (crate::op). -/
inductive TakeDropMode where
  | Take | TakeWhile | Drop | DropWhile
deriving DecidableEq

/-- `SortBy` (crate::op): numeric with optional integer/float default,
textual with case flag, or random. -/
inductive SortBy where
  | Num (def_integer : Option Int) (def_float : Option FloatV)
  | Text (nocase : Bool)
  | Random

/-- `PeekArg` (crate::op). -/
inductive PeekArg where
  | StdOut
  | File (file : String) (append : Bool) (crlf : Option Bool)
deriving DecidableEq

/-- `Op` (crate::op) as constructed by the argv parser. -/
inductive OpP where
  | Peek (arg : PeekArg)
  | Case (arg : CaseArg)
  | Replace (fromArg toArg : String) (count : Option Nat) (nocase : Bool)
  | Trim (arg : TrimArgP)
  | Slice (ranges : List SliceRange)
  | Uniq (nocase : Bool)
  | Join (delimiter pre post : String) (batch : Option Nat)
  | TakeDrop (mode : TakeDropMode) (cond : CondP)
  | Count
  | Sort (sort_by : SortBy) (desc : Bool)

/-- `Input` (crate::input) as constructed by the argv parser; `:clip` is
cfg(windows) and absent from the default build modelled here. -/
inductive InputP where
  | StdIn
  | File (files : List String)
  | Of (values : List String)
  | Gen (start stop step : Int) (fmt : Option String)
  | Repeat (value : String) (count : Option Nat)

/-- `Output` (crate::output) as constructed by the argv parser. -/
inductive OutputP where
  | StdOut
  | File (file : String) (append : Bool) (crlf : Option Bool)
  | Clip
deriving DecidableEq

/-- `parse_gen` (src/parse/args/input.rs): a required raw range token
parsed by `parse_range_in_gen` (any unconsumed remainder is an
UnexpectedRemaining error), then an optional format argument. -/
def parse_gen : List String → Except RpErr (InputP × List String)
  | [] => .error (.MissingArg ":gen" "range")
  | [_] => .error (.MissingArg ":gen" "range")
  | _ :: range :: rest =>
    match parse_range_in_gen range with
    | .ok (remaining, (start, stop, step)) =>
      if remaining = "" then
        let p := parse_opt_arg rest
        .ok (.Gen start stop step p.1, p.2)
      else .error (.UnexpectedRemaining ":gen" "range" remaining)
    | .error e => .error (.ArgParseErr ":gen" "range" range e)

/-- `parse_repeat` (src/parse/args/input.rs): a required value (escaped),
then an optional positive count. -/
def parse_repeat : List String → Except RpErr (InputP × List String)
  | [] => .error (.MissingArg ":repeat" "value")
  | [_] => .error (.MissingArg ":repeat" "value")
  | _ :: v :: rest =>
    let p := parse_positive_usize rest
    .ok (.Repeat (escapeArg v) p.1, p.2)

/-- `parse_input` (src/parse/args/input.rs): dispatch on the lowercased
head token; an unrecognized head selects stdin without consuming
anything. -/
def parse_input : List String → Except RpErr (InputP × List String)
  | [] => .ok (.StdIn, [])
  | tok :: rest =>
    let lower := lowerAscii tok
    if lower = ":in" then .ok (.StdIn, rest)
    else if lower = ":file" then
      match parse_arg1 ":file" "file_name" rest with
      | .error e => .error e
      | .ok (files, r) => .ok (.File files, r)
    else if lower = ":of" then
      match parse_arg1 ":of" "value" rest with
      | .error e => .error e
      | .ok (vals, r) => .ok (.Of vals, r)
    else if lower = ":gen" then parse_gen (tok :: rest)
    else if lower = ":repeat" then parse_repeat (tok :: rest)
    else .ok (.StdIn, tok :: rest)

/-- `parse_file` (src/parse/args/output.rs): `to file <file>[ append][ crlf|lf]`;
the file name is the next raw token, required. -/
def parse_output_file : List String → Except RpErr (OutputP × List String)
  | [] => .error (.MissingArg "to file" "file")
  | [_] => .error (.MissingArg "to file" "file")
  | _ :: file :: rest =>
    let p := parse_file_flags rest
    .ok (.File file p.1.1 p.1.2, p.2)

/-- `parse_output` (src/parse/args/output.rs): an optional `to` clause
(matched up to ASCII case); without it, or with an unrecognized word after
`to`, stdout is selected without consuming the unrecognized word. -/
def parse_output : List String → Except RpErr (OutputP × List String)
  | [] => .ok (.StdOut, [])
  | to_cmd :: rest =>
    if eq_ignore_ascii_case to_cmd "to" then
      match rest with
      | [] => .ok (.StdOut, [])
      | out :: r1 =>
        if eq_ignore_ascii_case out "file" then parse_output_file (out :: r1)
        else if eq_ignore_ascii_case out "clip" then .ok (.Clip, r1)
        else if eq_ignore_ascii_case out "out" then .ok (.StdOut, r1)
        else .ok (.StdOut, out :: r1)
    else .ok (.StdOut, to_cmd :: rest)

/-- `parse_cond` (src/parse/args/condition.rs): optional `not` tag, then a
condition form; `len` requires a next token parsing as range or spec;
`num` peeks and consumes only a recognized range/spec/`integer`/`float`
token; `reg` requires a next raw token compiling as a regex. -/
def parse_cond (cmd : String) (args : List String) : Except RpErr (CondP × List String) :=
  let pn := parse_tag_nocase "not" args
  match pn.2 with
  | [] => .error (.MissingArg cmd "condition")
  | arg0 :: r1 =>
    let lower := lowerAscii arg0
    if lower = "len" then
      match r1 with
      | [] => .error (.MissingArg cmd "len range or spec")
      | v :: r2 =>
        match parse_cond_range_usize v with
        | some (mn, mx) => .ok (mkCond (.TextLenRange mn mx) pn.1, r2)
        | none =>
          match parse_cond_spec_usize v with
          | some n => .ok (mkCond (.TextLenSpec n) pn.1, r2)
          | none =>
            .error (.ArgParseErr cmd "len range or spec" v "can not parse as range or spec arg")
    else if lower = "num" then
      match r1 with
      | [] => .ok (mkCond (.NumClass none) pn.1, [])
      | v :: r2 =>
        match parse_cond_range_num v with
        | some (mn, mx) => .ok (mkCond (.NumRange mn mx) pn.1, r2)
        | none =>
          match parse_cond_spec_num v with
          | some sp => .ok (mkCond (.NumSpec sp) pn.1, r2)
          | none =>
            match parse_cond_num v with
            | some b => .ok (mkCond (.NumClass (some b)) pn.1, r2)
            | none => .ok (mkCond (.NumClass none) pn.1, v :: r2)
    else if lower = "reg" then
      match r1 with
      | [] => .error (.MissingArg cmd "reg regex")
      | v :: r2 =>
        if regexSyntaxOk v then .ok (mkCond (.RegMatch v) pn.1, r2)
        else .error (.ParseRegexErr v "invalid regex")
    else if lower = "upper" then .ok (mkCond (.Text .Upper) pn.1, r1)
    else if lower = "lower" then .ok (mkCond (.Text .Lower) pn.1, r1)
    else if lower = "ascii" then .ok (mkCond (.Text .Ascii) pn.1, r1)
    else if lower = "nonascii" then .ok (mkCond (.Text .NonAscii) pn.1, r1)
    else if lower = "empty" then .ok (mkCond (.Text .Empty) pn.1, r1)
    else if lower = "blank" then .ok (mkCond (.Text .Blank) pn.1, r1)
    else .error (.MissingArg cmd "condition")

/-- `parse_peek`: optional file info, else peek to stdout. -/
def parse_peek : List String → Except RpErr (OpP × List String)
  | [] => .ok (.Peek .StdOut, [])
  | _ :: rest =>
    match parse_general_file_info true rest with
    | (some (file, app, crlf), r) => .ok (.Peek (.File file app crlf), r)
    | (none, r) => .ok (.Peek .StdOut, r)

/-- `parse_replace`: two required escaped arguments, an optional positive
count, an optional `nocase` tag. -/
def parse_replace : List String → Except RpErr (OpP × List String)
  | [] => .error (.MissingArg ":replace" "from")
  | _ :: rest =>
    match parse_arg rest with
    | (none, _) => .error (.MissingArg ":replace" "from")
    | (some fromArg, r1) =>
      match parse_arg r1 with
      | (none, _) => .error (.MissingArg ":replace" "to")
      | (some toArg, r2) =>
        let pc := parse_positive_usize r2
        let pt := parse_tag_nocase "nocase" pc.2
        .ok (.Replace fromArg toArg pc.1 pt.1, pt.2)

/-- `parse_trim`: optional pattern (non-command token), optional `nocase`
tag only when a pattern is present. -/
def parse_trim (pos : TrimPos) (char_mode : Bool) : List String → Except RpErr (OpP × List String)
  | [] => .ok (.Trim (.blank pos), [])
  | _ :: rest =>
    match parse_opt_arg rest with
    | (some pattern, r1) =>
      let pt := parse_tag_nocase "nocase" r1
      .ok (.Trim (if char_mode then .chars pos pattern pt.1 else .str pos pattern pt.1), pt.2)
    | (none, r1) => .ok (.Trim (.blank pos), r1)

/-- `parse_trim_regex`: a required raw regex token, which must compile. -/
def parse_trim_regex (cmd : String) (pos : TrimPos) : List String → Except RpErr (OpP × List String)
  | [] => .error (.MissingArg cmd "reg regex")
  | [_] => .error (.MissingArg cmd "reg regex")
  | _ :: regex :: rest =>
    if regexSyntaxOk regex then .ok (.Trim (.regex pos regex), rest)
    else .error (.ParseRegexErr regex "invalid regex")

/-- `parse_limit` (src/parse/args/op.rs lines 107-111): a required usize
count; 0 gives an empty range list, a positive count gives
`(None, Some (count-1))`. -/
def parse_limit : List String → Except RpErr (OpP × List String)
  | [] => .error (.MissingArg ":limit" "count")
  | _ :: rest =>
    match parse_usize ":limit" "count" rest with
    | .error e => .error e
    | .ok (count, r) =>
      .ok (.Slice (if count = 0 then [] else [(none, some (count - 1))]), r)

/-- `parse_skip`: a required usize count. -/
def parse_skip : List String → Except RpErr (OpP × List String)
  | [] => .error (.MissingArg ":skip" "count")
  | _ :: rest =>
    match parse_usize ":skip" "count" rest with
    | .error e => .error e
    | .ok (count, r) => .ok (.Slice [(some count, none)], r)

/-- The `:slice` range loop: consume tokens while they fully parse as usize
ranges, discarding inverted ones (min and max both present with
min > max). -/
def slice_ranges : List String → List SliceRange × List String
  | [] => ([], [])
  | v :: rest =>
    match parse_usize_range v with
    | some range =>
      let keep : Bool :=
        match range with
        | (some s, some e) => decide (s ≤ e)
        | _ => true
      let p := slice_ranges rest
      (if keep then range :: p.1 else p.1, p.2)
    | none => ([], v :: rest)

/-- `parse_slice`: at least one surviving range, else MissingArg. -/
def parse_slice : List String → Except RpErr (OpP × List String)
  | [] => .error (.MissingArg ":slice" "range")
  | _ :: rest =>
    let p := slice_ranges rest
    match p.1 with
    | [] => .error (.MissingArg ":slice" "range")
    | r :: rs => .ok (.Slice (r :: rs), p.2)

/-- `parse_uniq`: optional `nocase` tag. -/
def parse_uniq : List String → Except RpErr (OpP × List String)
  | [] => .ok (.Uniq false, [])
  | _ :: rest =>
    let pt := parse_tag_nocase "nocase" rest
    .ok (.Uniq pt.1, pt.2)

/-- `parse_join`: up to three optional non-command arguments (delimiter,
prefix, postfix), then an optional positive batch size. When a batch size
is consumed the source calls `args.next()` once more, discarding the token
following the size; that extra consumption is translated as `.tail`. -/
def parse_join : List String → Except RpErr (OpP × List String)
  | [] => .ok (.Join "" "" "" none, [])
  | _ :: rest =>
    match parse_opt_arg rest with
    | (none, r1) => .ok (.Join "" "" "" none, r1)
    | (some delim, r1) =>
      match parse_opt_arg r1 with
      | (none, r2) => .ok (.Join delim "" "" none, r2)
      | (some pre, r2) =>
        match parse_opt_arg r2 with
        | (none, r3) => .ok (.Join delim pre "" none, r3)
        | (some post, r3) =>
          match parse_positive_usize r3 with
          | (some size, r4) => .ok (.Join delim pre post (some size), r4.tail)
          | (none, r4) => .ok (.Join delim pre post none, r4)

/-- `parse_drop_or_drop_while`: optional `while` tag selects the mode, then
a condition. -/
def parse_drop_or_drop_while : List String → Except RpErr (OpP × List String)
  | [] => .error (.MissingArg ":drop" "condition")
  | _ :: rest =>
    match rest with
    | mw :: r1 =>
      if eq_ignore_ascii_case mw "while" then
        match parse_cond ":drop while" r1 with
        | .error e => .error e
        | .ok (c, r) => .ok (.TakeDrop .DropWhile c, r)
      else
        match parse_cond ":drop" (mw :: r1) with
        | .error e => .error e
        | .ok (c, r) => .ok (.TakeDrop .Drop c, r)
    | [] =>
      match parse_cond ":drop" [] with
      | .error e => .error e
      | .ok (c, r) => .ok (.TakeDrop .Drop c, r)

/-- `parse_take_or_take_while`. -/
def parse_take_or_take_while : List String → Except RpErr (OpP × List String)
  | [] => .error (.MissingArg ":take" "condition")
  | _ :: rest =>
    match rest with
    | mw :: r1 =>
      if eq_ignore_ascii_case mw "while" then
        match parse_cond ":take while" r1 with
        | .error e => .error e
        | .ok (c, r) => .ok (.TakeDrop .TakeWhile c, r)
      else
        match parse_cond ":take" (mw :: r1) with
        | .error e => .error e
        | .ok (c, r) => .ok (.TakeDrop .Take c, r)
    | [] =>
      match parse_cond ":take" [] with
      | .error e => .error e
      | .ok (c, r) => .ok (.TakeDrop .Take c, r)

/-- The sort-key scan of `parse_sort`: optional `num` (with optional
integer-then-float default) or `nocase` or `random`; an unrecognized token
selects textual case-sensitive sorting without being consumed. -/
def parse_sort_by : List String → SortBy × List String
  | [] => (.Text false, [])
  | v :: r1 =>
    if eq_ignore_ascii_case v "num" then
      match parse_as_integer r1 with
      | (some i, r2) => (.Num (some i) none, r2)
      | (none, _) =>
        match parse_as_float r1 with
        | (some f, r2) => (.Num none (some f), r2)
        | (none, r2) => (.Num none none, r2)
    else if eq_ignore_ascii_case v "nocase" then (.Text true, r1)
    else if eq_ignore_ascii_case v "random" then (.Random, r1)
    else (.Text false, v :: r1)

/-- `parse_sort`: the sort key, then an optional `desc` tag unless
random. -/
def parse_sort : List String → Except RpErr (OpP × List String)
  | [] => .ok (.Sort (.Text false) false, [])
  | _ :: rest =>
    let sb := parse_sort_by rest
    let pd : Bool × List String :=
      match sb.1 with
      | .Random => (false, sb.2)
      | _ => parse_tag_nocase "desc" sb.2
    .ok (.Sort sb.1 pd.1, pd.2)

/-- `parse_op` (src/parse/args/op.rs): dispatch on the lowercased head
token; an unrecognized head yields no operator and consumes nothing. -/
def parse_op : List String → Except RpErr (Option OpP × List String)
  | [] => .ok (none, [])
  | tok :: rest =>
    let lower := lowerAscii tok
    let wrap : Except RpErr (OpP × List String) → Except RpErr (Option OpP × List String) :=
      fun r =>
        match r with
        | .error e => .error e
        | .ok (op, r') => .ok (some op, r')
    if lower = ":peek" then wrap (parse_peek (tok :: rest))
    else if lower = ":lower" then .ok (some (.Case .Lower), rest)
    else if lower = ":upper" then .ok (some (.Case .Upper), rest)
    else if lower = ":case" then .ok (some (.Case .Switch), rest)
    else if lower = ":replace" then wrap (parse_replace (tok :: rest))
    else if lower = ":trim" then wrap (parse_trim .Both false (tok :: rest))
    else if lower = ":ltrim" then wrap (parse_trim .Head false (tok :: rest))
    else if lower = ":rtrim" then wrap (parse_trim .Tail false (tok :: rest))
    else if lower = ":trimc" then wrap (parse_trim .Both true (tok :: rest))
    else if lower = ":ltrimc" then wrap (parse_trim .Head true (tok :: rest))
    else if lower = ":rtrimc" then wrap (parse_trim .Tail true (tok :: rest))
    else if lower = ":trimr" then wrap (parse_trim_regex ":trimr" .Both (tok :: rest))
    else if lower = ":ltrimr" then wrap (parse_trim_regex ":ltrimr" .Head (tok :: rest))
    else if lower = ":rtrimr" then wrap (parse_trim_regex ":rtrimr" .Tail (tok :: rest))
    else if lower = ":limit" then wrap (parse_limit (tok :: rest))
    else if lower = ":skip" then wrap (parse_skip (tok :: rest))
    else if lower = ":slice" then wrap (parse_slice (tok :: rest))
    else if lower = ":uniq" then wrap (parse_uniq (tok :: rest))
    else if lower = ":join" then wrap (parse_join (tok :: rest))
    else if lower = ":drop" then wrap (parse_drop_or_drop_while (tok :: rest))
    else if lower = ":take" then wrap (parse_take_or_take_while (tok :: rest))
    else if lower = ":count" then .ok (some .Count, rest)
    else if lower = ":sort" then wrap (parse_sort (tok :: rest))
    else .ok (none, tok :: rest)

/-- The `parse_ops` loop with explicit fuel. -/
def parse_ops_go : Nat → List String → Except RpErr (List OpP × List String)
  | 0, args => .ok ([], args)
  | fuel + 1, args =>
    match parse_op args with
    | .error e => .error e
    | .ok (none, r) => .ok ([], r)
    | .ok (some op, r) =>
      match parse_ops_go fuel r with
      | .error e => .error e
      | .ok (ops, r') => .ok (op :: ops, r')

/-- `parse_ops` (src/parse/args/op.rs): repeat `parse_op` until it yields
no operator. Every successful `parse_op` consumes at least the keyword
token (`parse_op_shrinks` below), so `length + 1` fuel never runs out. -/
def parse_ops (args : List String) : Except RpErr (List OpP × List String) :=
  parse_ops_go (args.length + 1) args

/-- `parse` (src/parse/args/mod.rs lines 19-25), the top-level argv
parser: input clause, then operators, then output clause; any tokens left
over are an UnknownArgs error. It is a pure function of the token list,
run before the input source is opened, so an error here means no item is
ever read. -/
def parse (args : List String) : Except RpErr (InputP × List OpP × OutputP) :=
  match parse_input args with
  | .error e => .error e
  | .ok (i, r1) =>
    match parse_ops r1 with
    | .error e => .error e
    | .ok (ops, r2) =>
      match parse_output r2 with
      | .error e => .error e
      | .ok (o, r3) =>
        if r3 = [] then .ok (i, ops, o) else .error (.UnknownArgs r3)

/- Consumption bounds: every helper returns a remainder no longer than its
   input, and every successful `parse_op` consumes at least the keyword
   token, so the `length + 1` fuel of `parse_ops` never runs out. -/

theorem parse_arg_len (l : List String) : (parse_arg l).2.length ≤ l.length := by
  cases l with
  | nil => exact Nat.le_refl _
  | cons v rest => exact Nat.le_succ _

theorem parse_opt_arg_len (l : List String) : (parse_opt_arg l).2.length ≤ l.length := by
  cases l with
  | nil => exact Nat.le_refl _
  | cons v rest =>
    dsimp only [parse_opt_arg]
    split
    · exact Nat.le_refl _
    · exact Nat.le_succ _

theorem parse_arg0_len (l : List String) : (parse_arg0 l).2.length ≤ l.length := by
  induction l with
  | nil => exact Nat.le_refl _
  | cons v rest ih =>
    dsimp only [parse_arg0]
    split
    · exact Nat.le_refl _
    · exact Nat.le_succ_of_le ih

theorem parse_arg1_len {cmd arg : String} {l vs : List String} {r : List String}
    (h : parse_arg1 cmd arg l = .ok (vs, r)) : r.length ≤ l.length := by
  have h0 := parse_arg0_len l
  dsimp only [parse_arg1] at h
  split at h
  · exact absurd h (by simp)
  · next v vs' rest heq =>
    simp only [Except.ok.injEq, Prod.mk.injEq] at h
    obtain ⟨-, rfl⟩ := h
    have hr : (parse_arg0 l).2 = rest := by rw [heq]
    rw [← hr]
    exact h0

theorem parse_tag_nocase_len (tag : String) (l : List String) :
    (parse_tag_nocase tag l).2.length ≤ l.length := by
  cases l with
  | nil => exact Nat.le_refl _
  | cons v rest =>
    dsimp only [parse_tag_nocase]
    split
    · exact Nat.le_succ _
    · exact Nat.le_refl _

theorem parse_positive_usize_len (l : List String) :
    (parse_positive_usize l).2.length ≤ l.length := by
  cases l with
  | nil => exact Nat.le_refl _
  | cons v rest =>
    dsimp only [parse_positive_usize]
    split
    · split
      · exact Nat.le_succ _
      · exact Nat.le_refl _
    · exact Nat.le_refl _

theorem parse_usize_len {cmd arg : String} {l : List String} {n : Nat} {r : List String}
    (h : parse_usize cmd arg l = .ok (n, r)) : r.length ≤ l.length := by
  cases l with
  | nil => exact absurd h (by simp [parse_usize])
  | cons v rest =>
    dsimp only [parse_usize] at h
    split at h
    · simp only [Except.ok.injEq, Prod.mk.injEq] at h
      obtain ⟨-, rfl⟩ := h
      exact Nat.le_succ _
    · exact absurd h (by simp)

theorem parse_as_integer_len (l : List String) :
    (parse_as_integer l).2.length ≤ l.length := by
  cases l with
  | nil => exact Nat.le_refl _
  | cons v rest =>
    dsimp only [parse_as_integer]
    split
    · exact Nat.le_succ _
    · exact Nat.le_refl _

theorem parse_as_float_len (l : List String) :
    (parse_as_float l).2.length ≤ l.length := by
  cases l with
  | nil => exact Nat.le_refl _
  | cons v rest =>
    dsimp only [parse_as_float]
    split
    · exact Nat.le_succ _
    · exact Nat.le_refl _

theorem parse_file_flags_len (l : List String) :
    (parse_file_flags l).2.length ≤ l.length := by
  cases l with
  | nil => exact Nat.le_refl _
  | cons tk r2 =>
    dsimp only [parse_file_flags]
    split
    · cases r2 with
      | nil => simp
      | cons tk2 r3 =>
        dsimp only
        split
        · dsimp only [List.length_cons]; omega
        · split <;> (dsimp only [List.length_cons]; omega)
    · split
      · dsimp only [List.length_cons]; omega
      · split <;> (dsimp only [List.length_cons]; omega)

theorem parse_general_file_info_len (b : Bool) (l : List String) :
    (parse_general_file_info b l).2.length ≤ l.length := by
  have hbase : (if b then parse_opt_arg l else parse_arg l).2.length ≤ l.length := by
    cases b
    · exact parse_arg_len l
    · exact parse_opt_arg_len l
  dsimp only [parse_general_file_info]
  split
  · next r heq =>
    have : (if b then parse_opt_arg l else parse_arg l).2 = r := by rw [heq]
    rw [← this]
    exact hbase
  · next file r heq =>
    have h1 : (if b then parse_opt_arg l else parse_arg l).2 = r := by rw [heq]
    have h2 := parse_file_flags_len r
    rw [h1] at hbase
    exact le_trans h2 hbase

theorem slice_ranges_len (l : List String) : (slice_ranges l).2.length ≤ l.length := by
  induction l with
  | nil => exact Nat.le_refl _
  | cons v rest ih =>
    dsimp only [slice_ranges]
    split
    · exact Nat.le_succ_of_le ih
    · exact Nat.le_refl _

theorem parse_sort_by_len (l : List String) : (parse_sort_by l).2.length ≤ l.length := by
  cases l with
  | nil => exact Nat.le_refl _
  | cons v r1 =>
    dsimp only [parse_sort_by]
    split
    · split
      · next i r2 heq =>
        have b := parse_as_integer_len r1
        have e : (parse_as_integer r1).2 = r2 := by rw [heq]
        rw [e] at b
        simp only [List.length_cons]
        omega
      · split
        · next f r2 heq =>
          have b := parse_as_float_len r1
          have e : (parse_as_float r1).2 = r2 := by rw [heq]
          rw [e] at b
          simp only [List.length_cons]
          omega
        · next r2 heq =>
          have b := parse_as_float_len r1
          have e : (parse_as_float r1).2 = r2 := by rw [heq]
          rw [e] at b
          simp only [List.length_cons]
          omega
    · split
      · simp only [List.length_cons]; omega
      · split
        · simp only [List.length_cons]; omega
        · exact Nat.le_refl _

theorem parse_cond_len {cmd : String} {args : List String} {c : CondP} {r : List String}
    (h : parse_cond cmd args = .ok (c, r)) : r.length ≤ args.length := by
  have hnot := parse_tag_nocase_len "not" args
  dsimp only [parse_cond] at h
  split at h
  · exact absurd h (by simp)
  · next arg0 r1 heq =>
    rw [heq] at hnot
    simp only [List.length_cons] at hnot
    repeat' split at h
    all_goals try exact Except.noConfusion h
    all_goals simp only [Except.ok.injEq, Prod.mk.injEq] at h
    all_goals obtain ⟨-, rfl⟩ := h
    all_goals try simp only [List.length_cons] at hnot ⊢
    all_goals omega

theorem parse_peek_len {x : String} {l : List String} {op : OpP} {r : List String}
    (h : parse_peek (x :: l) = .ok (op, r)) : r.length ≤ l.length := by
  have h0 := parse_general_file_info_len true l
  dsimp only [parse_peek] at h
  split at h
  · next file app crlf rr heq =>
    simp only [Except.ok.injEq, Prod.mk.injEq] at h
    obtain ⟨-, rfl⟩ := h
    have e : (parse_general_file_info true l).2 = rr := by rw [heq]
    rw [← e]
    exact h0
  · next rr heq =>
    simp only [Except.ok.injEq, Prod.mk.injEq] at h
    obtain ⟨-, rfl⟩ := h
    have e : (parse_general_file_info true l).2 = rr := by rw [heq]
    rw [← e]
    exact h0

theorem parse_replace_len {x : String} {l : List String} {op : OpP} {r : List String}
    (h : parse_replace (x :: l) = .ok (op, r)) : r.length ≤ l.length := by
  dsimp only [parse_replace] at h
  split at h
  · exact Except.noConfusion h
  · next fromArg r1 heq =>
    split at h
    · exact Except.noConfusion h
    · next toArg r2 heq2 =>
      simp only [Except.ok.injEq, Prod.mk.injEq] at h
      obtain ⟨-, rfl⟩ := h
      have e1 : (parse_arg l).2 = r1 := by rw [heq]
      have e2 : (parse_arg r1).2 = r2 := by rw [heq2]
      have b1 := parse_arg_len l
      have b2 := parse_arg_len r1
      have b3 := parse_positive_usize_len r2
      have b4 := parse_tag_nocase_len "nocase" (parse_positive_usize r2).2
      rw [e1] at b1
      rw [e2] at b2
      omega

theorem parse_trim_len {pos : TrimPos} {cm : Bool} {x : String} {l : List String}
    {op : OpP} {r : List String}
    (h : parse_trim pos cm (x :: l) = .ok (op, r)) : r.length ≤ l.length := by
  dsimp only [parse_trim] at h
  split at h
  · next pattern r1 heq =>
    simp only [Except.ok.injEq, Prod.mk.injEq] at h
    obtain ⟨-, rfl⟩ := h
    have e1 : (parse_opt_arg l).2 = r1 := by rw [heq]
    have b1 := parse_opt_arg_len l
    have b2 := parse_tag_nocase_len "nocase" r1
    rw [e1] at b1
    omega
  · next r1 heq =>
    simp only [Except.ok.injEq, Prod.mk.injEq] at h
    obtain ⟨-, rfl⟩ := h
    have e1 : (parse_opt_arg l).2 = r1 := by rw [heq]
    have b1 := parse_opt_arg_len l
    rw [e1] at b1
    exact b1

theorem parse_trim_regex_len {cmd : String} {pos : TrimPos} {x : String} {l : List String}
    {op : OpP} {r : List String}
    (h : parse_trim_regex cmd pos (x :: l) = .ok (op, r)) : r.length ≤ l.length := by
  cases l with
  | nil => exact Except.noConfusion h
  | cons regex rest =>
    dsimp only [parse_trim_regex] at h
    split at h
    · simp only [Except.ok.injEq, Prod.mk.injEq] at h
      obtain ⟨-, rfl⟩ := h
      exact Nat.le_succ _
    · exact Except.noConfusion h

theorem parse_limit_len {x : String} {l : List String} {op : OpP} {r : List String}
    (h : parse_limit (x :: l) = .ok (op, r)) : r.length ≤ l.length := by
  dsimp only [parse_limit] at h
  split at h
  · exact Except.noConfusion h
  · next count rr heq =>
    simp only [Except.ok.injEq, Prod.mk.injEq] at h
    obtain ⟨-, rfl⟩ := h
    exact parse_usize_len heq

theorem parse_skip_len {x : String} {l : List String} {op : OpP} {r : List String}
    (h : parse_skip (x :: l) = .ok (op, r)) : r.length ≤ l.length := by
  dsimp only [parse_skip] at h
  split at h
  · exact Except.noConfusion h
  · next count rr heq =>
    simp only [Except.ok.injEq, Prod.mk.injEq] at h
    obtain ⟨-, rfl⟩ := h
    exact parse_usize_len heq

theorem parse_slice_len {x : String} {l : List String} {op : OpP} {r : List String}
    (h : parse_slice (x :: l) = .ok (op, r)) : r.length ≤ l.length := by
  have h0 := slice_ranges_len l
  dsimp only [parse_slice] at h
  split at h
  · exact Except.noConfusion h
  · simp only [Except.ok.injEq, Prod.mk.injEq] at h
    obtain ⟨-, rfl⟩ := h
    exact h0

theorem parse_uniq_len {x : String} {l : List String} {op : OpP} {r : List String}
    (h : parse_uniq (x :: l) = .ok (op, r)) : r.length ≤ l.length := by
  dsimp only [parse_uniq] at h
  simp only [Except.ok.injEq, Prod.mk.injEq] at h
  obtain ⟨-, rfl⟩ := h
  exact parse_tag_nocase_len "nocase" l

theorem parse_join_len {x : String} {l : List String} {op : OpP} {r : List String}
    (h : parse_join (x :: l) = .ok (op, r)) : r.length ≤ l.length := by
  dsimp only [parse_join] at h
  split at h
  · next r1 heq =>
    simp only [Except.ok.injEq, Prod.mk.injEq] at h
    obtain ⟨-, rfl⟩ := h
    have e1 : (parse_opt_arg l).2 = r1 := by rw [heq]
    have b1 := parse_opt_arg_len l
    rw [e1] at b1
    exact b1
  · next delim r1 heq =>
    have e1 : (parse_opt_arg l).2 = r1 := by rw [heq]
    have b1 := parse_opt_arg_len l
    rw [e1] at b1
    split at h
    · next r2 heq2 =>
      simp only [Except.ok.injEq, Prod.mk.injEq] at h
      obtain ⟨-, rfl⟩ := h
      have e2 : (parse_opt_arg r1).2 = r2 := by rw [heq2]
      have b2 := parse_opt_arg_len r1
      rw [e2] at b2
      omega
    · next pre r2 heq2 =>
      have e2 : (parse_opt_arg r1).2 = r2 := by rw [heq2]
      have b2 := parse_opt_arg_len r1
      rw [e2] at b2
      split at h
      · next r3 heq3 =>
        simp only [Except.ok.injEq, Prod.mk.injEq] at h
        obtain ⟨-, rfl⟩ := h
        have e3 : (parse_opt_arg r2).2 = r3 := by rw [heq3]
        have b3 := parse_opt_arg_len r2
        rw [e3] at b3
        omega
      · next post r3 heq3 =>
        have e3 : (parse_opt_arg r2).2 = r3 := by rw [heq3]
        have b3 := parse_opt_arg_len r2
        rw [e3] at b3
        split at h
        · next size r4 heq4 =>
          simp only [Except.ok.injEq, Prod.mk.injEq] at h
          obtain ⟨-, rfl⟩ := h
          have e4 : (parse_positive_usize r3).2 = r4 := by rw [heq4]
          have b4 := parse_positive_usize_len r3
          rw [e4] at b4
          have b5 := List.length_tail r4
          omega
        · next r4 heq4 =>
          simp only [Except.ok.injEq, Prod.mk.injEq] at h
          obtain ⟨-, rfl⟩ := h
          have e4 : (parse_positive_usize r3).2 = r4 := by rw [heq4]
          have b4 := parse_positive_usize_len r3
          rw [e4] at b4
          omega

theorem parse_drop_len {x : String} {l : List String} {op : OpP} {r : List String}
    (h : parse_drop_or_drop_while (x :: l) = .ok (op, r)) : r.length ≤ l.length := by
  dsimp only [parse_drop_or_drop_while] at h
  split at h
  · next mw r1 =>
    split at h
    · split at h
      · exact Except.noConfusion h
      · next c0 rr heq =>
        simp only [Except.ok.injEq, Prod.mk.injEq] at h
        obtain ⟨-, rfl⟩ := h
        have := parse_cond_len heq
        simp only [List.length_cons]
        omega
    · split at h
      · exact Except.noConfusion h
      · next c0 rr heq =>
        simp only [Except.ok.injEq, Prod.mk.injEq] at h
        obtain ⟨-, rfl⟩ := h
        exact parse_cond_len heq
  · split at h
    · exact Except.noConfusion h
    · next c0 rr heq =>
      simp only [Except.ok.injEq, Prod.mk.injEq] at h
      obtain ⟨-, rfl⟩ := h
      have := parse_cond_len heq
      simpa using this

theorem parse_take_len {x : String} {l : List String} {op : OpP} {r : List String}
    (h : parse_take_or_take_while (x :: l) = .ok (op, r)) : r.length ≤ l.length := by
  dsimp only [parse_take_or_take_while] at h
  split at h
  · next mw r1 =>
    split at h
    · split at h
      · exact Except.noConfusion h
      · next c0 rr heq =>
        simp only [Except.ok.injEq, Prod.mk.injEq] at h
        obtain ⟨-, rfl⟩ := h
        have := parse_cond_len heq
        simp only [List.length_cons]
        omega
    · split at h
      · exact Except.noConfusion h
      · next c0 rr heq =>
        simp only [Except.ok.injEq, Prod.mk.injEq] at h
        obtain ⟨-, rfl⟩ := h
        exact parse_cond_len heq
  · split at h
    · exact Except.noConfusion h
    · next c0 rr heq =>
      simp only [Except.ok.injEq, Prod.mk.injEq] at h
      obtain ⟨-, rfl⟩ := h
      have := parse_cond_len heq
      simpa using this

theorem parse_sort_len {x : String} {l : List String} {op : OpP} {r : List String}
    (h : parse_sort (x :: l) = .ok (op, r)) : r.length ≤ l.length := by
  have h0 := parse_sort_by_len l
  have h1 := parse_tag_nocase_len "desc" (parse_sort_by l).2
  dsimp only [parse_sort] at h
  simp only [Except.ok.injEq, Prod.mk.injEq] at h
  obtain ⟨-, rfl⟩ := h
  split
  · exact h0
  · omega

/-- Every successful `parse_op` consumes at least the keyword token. -/
theorem parse_op_shrinks {args : List String} {op : OpP} {r : List String}
    (h : parse_op args = .ok (some op, r)) : r.length < args.length := by
  cases args with
  | nil => exact absurd h (by simp [parse_op])
  | cons tok rest =>
    dsimp only [parse_op] at h
    by_cases h1 : lowerAscii tok = ":peek"
    · rw [if_pos h1] at h
      split at h
      · exact Except.noConfusion h
      · next op0 r0 heq =>
          simp only [Except.ok.injEq, Prod.mk.injEq] at h
          obtain ⟨-, rfl⟩ := h
          have := parse_peek_len heq
          simp only [List.length_cons]
          omega
    · rw [if_neg h1] at h
      by_cases h2 : lowerAscii tok = ":lower"
      · rw [if_pos h2] at h
        simp only [Except.ok.injEq, Prod.mk.injEq] at h
        obtain ⟨-, rfl⟩ := h
        simp only [List.length_cons]
        omega
      · rw [if_neg h2] at h
        by_cases h3 : lowerAscii tok = ":upper"
        · rw [if_pos h3] at h
          simp only [Except.ok.injEq, Prod.mk.injEq] at h
          obtain ⟨-, rfl⟩ := h
          simp only [List.length_cons]
          omega
        · rw [if_neg h3] at h
          by_cases h4 : lowerAscii tok = ":case"
          · rw [if_pos h4] at h
            simp only [Except.ok.injEq, Prod.mk.injEq] at h
            obtain ⟨-, rfl⟩ := h
            simp only [List.length_cons]
            omega
          · rw [if_neg h4] at h
            by_cases h5 : lowerAscii tok = ":replace"
            · rw [if_pos h5] at h
              split at h
              · exact Except.noConfusion h
              · next op0 r0 heq =>
                  simp only [Except.ok.injEq, Prod.mk.injEq] at h
                  obtain ⟨-, rfl⟩ := h
                  have := parse_replace_len heq
                  simp only [List.length_cons]
                  omega
            · rw [if_neg h5] at h
              by_cases h6 : lowerAscii tok = ":trim"
              · rw [if_pos h6] at h
                split at h
                · exact Except.noConfusion h
                · next op0 r0 heq =>
                    simp only [Except.ok.injEq, Prod.mk.injEq] at h
                    obtain ⟨-, rfl⟩ := h
                    have := parse_trim_len heq
                    simp only [List.length_cons]
                    omega
              · rw [if_neg h6] at h
                by_cases h7 : lowerAscii tok = ":ltrim"
                · rw [if_pos h7] at h
                  split at h
                  · exact Except.noConfusion h
                  · next op0 r0 heq =>
                      simp only [Except.ok.injEq, Prod.mk.injEq] at h
                      obtain ⟨-, rfl⟩ := h
                      have := parse_trim_len heq
                      simp only [List.length_cons]
                      omega
                · rw [if_neg h7] at h
                  by_cases h8 : lowerAscii tok = ":rtrim"
                  · rw [if_pos h8] at h
                    split at h
                    · exact Except.noConfusion h
                    · next op0 r0 heq =>
                        simp only [Except.ok.injEq, Prod.mk.injEq] at h
                        obtain ⟨-, rfl⟩ := h
                        have := parse_trim_len heq
                        simp only [List.length_cons]
                        omega
                  · rw [if_neg h8] at h
                    by_cases h9 : lowerAscii tok = ":trimc"
                    · rw [if_pos h9] at h
                      split at h
                      · exact Except.noConfusion h
                      · next op0 r0 heq =>
                          simp only [Except.ok.injEq, Prod.mk.injEq] at h
                          obtain ⟨-, rfl⟩ := h
                          have := parse_trim_len heq
                          simp only [List.length_cons]
                          omega
                    · rw [if_neg h9] at h
                      by_cases h10 : lowerAscii tok = ":ltrimc"
                      · rw [if_pos h10] at h
                        split at h
                        · exact Except.noConfusion h
                        · next op0 r0 heq =>
                            simp only [Except.ok.injEq, Prod.mk.injEq] at h
                            obtain ⟨-, rfl⟩ := h
                            have := parse_trim_len heq
                            simp only [List.length_cons]
                            omega
                      · rw [if_neg h10] at h
                        by_cases h11 : lowerAscii tok = ":rtrimc"
                        · rw [if_pos h11] at h
                          split at h
                          · exact Except.noConfusion h
                          · next op0 r0 heq =>
                              simp only [Except.ok.injEq, Prod.mk.injEq] at h
                              obtain ⟨-, rfl⟩ := h
                              have := parse_trim_len heq
                              simp only [List.length_cons]
                              omega
                        · rw [if_neg h11] at h
                          by_cases h12 : lowerAscii tok = ":trimr"
                          · rw [if_pos h12] at h
                            split at h
                            · exact Except.noConfusion h
                            · next op0 r0 heq =>
                                simp only [Except.ok.injEq, Prod.mk.injEq] at h
                                obtain ⟨-, rfl⟩ := h
                                have := parse_trim_regex_len heq
                                simp only [List.length_cons]
                                omega
                          · rw [if_neg h12] at h
                            by_cases h13 : lowerAscii tok = ":ltrimr"
                            · rw [if_pos h13] at h
                              split at h
                              · exact Except.noConfusion h
                              · next op0 r0 heq =>
                                  simp only [Except.ok.injEq, Prod.mk.injEq] at h
                                  obtain ⟨-, rfl⟩ := h
                                  have := parse_trim_regex_len heq
                                  simp only [List.length_cons]
                                  omega
                            · rw [if_neg h13] at h
                              by_cases h14 : lowerAscii tok = ":rtrimr"
                              · rw [if_pos h14] at h
                                split at h
                                · exact Except.noConfusion h
                                · next op0 r0 heq =>
                                    simp only [Except.ok.injEq, Prod.mk.injEq] at h
                                    obtain ⟨-, rfl⟩ := h
                                    have := parse_trim_regex_len heq
                                    simp only [List.length_cons]
                                    omega
                              · rw [if_neg h14] at h
                                by_cases h15 : lowerAscii tok = ":limit"
                                · rw [if_pos h15] at h
                                  split at h
                                  · exact Except.noConfusion h
                                  · next op0 r0 heq =>
                                      simp only [Except.ok.injEq, Prod.mk.injEq] at h
                                      obtain ⟨-, rfl⟩ := h
                                      have := parse_limit_len heq
                                      simp only [List.length_cons]
                                      omega
                                · rw [if_neg h15] at h
                                  by_cases h16 : lowerAscii tok = ":skip"
                                  · rw [if_pos h16] at h
                                    split at h
                                    · exact Except.noConfusion h
                                    · next op0 r0 heq =>
                                        simp only [Except.ok.injEq, Prod.mk.injEq] at h
                                        obtain ⟨-, rfl⟩ := h
                                        have := parse_skip_len heq
                                        simp only [List.length_cons]
                                        omega
                                  · rw [if_neg h16] at h
                                    by_cases h17 : lowerAscii tok = ":slice"
                                    · rw [if_pos h17] at h
                                      split at h
                                      · exact Except.noConfusion h
                                      · next op0 r0 heq =>
                                          simp only [Except.ok.injEq, Prod.mk.injEq] at h
                                          obtain ⟨-, rfl⟩ := h
                                          have := parse_slice_len heq
                                          simp only [List.length_cons]
                                          omega
                                    · rw [if_neg h17] at h
                                      by_cases h18 : lowerAscii tok = ":uniq"
                                      · rw [if_pos h18] at h
                                        split at h
                                        · exact Except.noConfusion h
                                        · next op0 r0 heq =>
                                            simp only [Except.ok.injEq, Prod.mk.injEq] at h
                                            obtain ⟨-, rfl⟩ := h
                                            have := parse_uniq_len heq
                                            simp only [List.length_cons]
                                            omega
                                      · rw [if_neg h18] at h
                                        by_cases h19 : lowerAscii tok = ":join"
                                        · rw [if_pos h19] at h
                                          split at h
                                          · exact Except.noConfusion h
                                          · next op0 r0 heq =>
                                              simp only [Except.ok.injEq, Prod.mk.injEq] at h
                                              obtain ⟨-, rfl⟩ := h
                                              have := parse_join_len heq
                                              simp only [List.length_cons]
                                              omega
                                        · rw [if_neg h19] at h
                                          by_cases h20 : lowerAscii tok = ":drop"
                                          · rw [if_pos h20] at h
                                            split at h
                                            · exact Except.noConfusion h
                                            · next op0 r0 heq =>
                                                simp only [Except.ok.injEq, Prod.mk.injEq] at h
                                                obtain ⟨-, rfl⟩ := h
                                                have := parse_drop_len heq
                                                simp only [List.length_cons]
                                                omega
                                          · rw [if_neg h20] at h
                                            by_cases h21 : lowerAscii tok = ":take"
                                            · rw [if_pos h21] at h
                                              split at h
                                              · exact Except.noConfusion h
                                              · next op0 r0 heq =>
                                                  simp only [Except.ok.injEq, Prod.mk.injEq] at h
                                                  obtain ⟨-, rfl⟩ := h
                                                  have := parse_take_len heq
                                                  simp only [List.length_cons]
                                                  omega
                                            · rw [if_neg h21] at h
                                              by_cases h22 : lowerAscii tok = ":count"
                                              · rw [if_pos h22] at h
                                                simp only [Except.ok.injEq, Prod.mk.injEq] at h
                                                obtain ⟨-, rfl⟩ := h
                                                simp only [List.length_cons]
                                                omega
                                              · rw [if_neg h22] at h
                                                by_cases h23 : lowerAscii tok = ":sort"
                                                · rw [if_pos h23] at h
                                                  split at h
                                                  · exact Except.noConfusion h
                                                  · next op0 r0 heq =>
                                                      simp only [Except.ok.injEq, Prod.mk.injEq] at h
                                                      obtain ⟨-, rfl⟩ := h
                                                      have := parse_sort_len heq
                                                      simp only [List.length_cons]
                                                      omega
                                                · rw [if_neg h23] at h
                                                  simp only [Except.ok.injEq, Prod.mk.injEq] at h
                                                  exact absurd h.1 (by simp)

/-- With any sufficient fuel, `parse_ops_go` computes the same result, so
`parse_ops` (fuel `length + 1`) is fuel-independent: the embedded loop
never truncates. -/
theorem parse_ops_go_eq : ∀ (fuel1 fuel2 : Nat) (args : List String),
    args.length < fuel1 → args.length < fuel2 →
    parse_ops_go fuel1 args = parse_ops_go fuel2 args := by
  intro fuel1
  induction fuel1 with
  | zero => intro fuel2 args h1 h2; exact absurd h1 (Nat.not_lt_zero _)
  | succ f ih =>
    intro fuel2 args h1 h2
    cases fuel2 with
    | zero => exact absurd h2 (Nat.not_lt_zero _)
    | succ f2 =>
      dsimp only [parse_ops_go]
      cases hop : parse_op args with
      | error e => rfl
      | ok p =>
        obtain ⟨opt, rr⟩ := p
        cases opt with
        | none => rfl
        | some op =>
          have hr : rr.length < args.length := parse_op_shrinks hop
          dsimp only
          rw [ih f2 rr (by omega) (by omega)]

/-- The fuel of `parse_ops` is sufficient. -/
theorem parse_ops_fuel (fuel : Nat) (args : List String) (h : args.length < fuel) :
    parse_ops_go fuel args = parse_ops args :=
  parse_ops_go_eq fuel (args.length + 1) args h (Nat.lt_succ_self _)

theorem isCmdToken_data {tok : String} (h : isCmdToken tok = true) :
    ∃ c cs, tok.data = ':' :: c :: cs := by
  unfold isCmdToken at h
  split at h
  · next c cs heq => exact ⟨c, cs, heq⟩
  · exact absurd h (by simp)

/-- A command-shaped token starts with `:`, so it can never match the
output keyword `to` (even ignoring ASCII case). -/
theorem cmdToken_not_to {tok : String} (h : isCmdToken tok = true) :
    eq_ignore_ascii_case tok "to" = false := by
  obtain ⟨c, cs, htd⟩ := isCmdToken_data h
  unfold eq_ignore_ascii_case
  apply decide_eq_false
  intro he
  have h1 : (lowerAscii tok).data.head? = some ':' := by
    unfold lowerAscii
    rw [htd]
    rfl
  rw [he] at h1
  exact absurd h1 (by decide)

/-- A head token outside the input keywords selects stdin and consumes
nothing. -/
theorem parse_input_default {tok : String} (rest : List String)
    (h : lowerAscii tok ∉ inputKeywords) :
    parse_input (tok :: rest) = .ok (.StdIn, tok :: rest) := by
  simp only [inputKeywords, List.mem_cons, List.mem_singleton, List.not_mem_nil,
    or_false, not_or] at h
  obtain ⟨n1, n2, n3, n4, n5⟩ := h
  dsimp only [parse_input]
  rw [if_neg n1, if_neg n2, if_neg n3, if_neg n4, if_neg n5]

/-- A head token outside the operator keywords yields no operator and
consumes nothing. -/
theorem parse_op_default {tok : String} (rest : List String)
    (h : lowerAscii tok ∉ opKeywords) :
    parse_op (tok :: rest) = .ok (none, tok :: rest) := by
  simp only [opKeywords, List.mem_cons, List.mem_singleton, List.not_mem_nil,
    or_false, not_or] at h
  obtain ⟨n1, n2, n3, n4, n5, n6, n7, n8, n9, n10, n11, n12, n13, n14, n15, n16,
    n17, n18, n19, n20, n21, n22, n23⟩ := h
  dsimp only [parse_op]
  rw [if_neg n1, if_neg n2, if_neg n3, if_neg n4, if_neg n5, if_neg n6, if_neg n7,
    if_neg n8, if_neg n9, if_neg n10, if_neg n11, if_neg n12, if_neg n13, if_neg n14,
    if_neg n15, if_neg n16, if_neg n17, if_neg n18, if_neg n19, if_neg n20,
    if_neg n21, if_neg n22, if_neg n23]

theorem parse_ops_default {tok : String} (rest : List String)
    (h : lowerAscii tok ∉ opKeywords) :
    parse_ops (tok :: rest) = .ok ([], tok :: rest) := by
  have h0 := parse_op_default rest h
  unfold parse_ops parse_ops_go
  rw [h0]

/-- A head token that does not match `to` selects stdout and consumes
nothing. -/
theorem parse_output_not_to {tok : String} (rest : List String)
    (h : eq_ignore_ascii_case tok "to" = false) :
    parse_output (tok :: rest) = .ok (.StdOut, tok :: rest) := by
  dsimp only [parse_output]
  rw [h]
  rfl

/-- C9: Command-line parsing is completed before any item is read: the
argv parser is a pure function of the token list, run before any source is
opened. Conjuncts: (a) an error in the input, operator or output clause
aborts the whole parse with that error, eagerly; (b) once the three
clauses succeed, the parse succeeds exactly when every token was consumed,
and unconsumed trailing tokens are an UnknownArgs error; (c) an unknown
command - a command-shaped token matching no input or operator keyword -
fails the whole parse with UnknownArgs; (d) a missing required argument is
an eager MissingArg error (instances: :replace, :file); (e) an invalid
numeric literal where :limit expects its count is an eager ArgParseErr,
for every non-usize literal; (f) an invalid regex after :trimr is an eager
ParseRegexErr, for every rejected pattern; (g) however, :limit does not
require a positive count: ':limit 0' parses successfully (empty range
list); the strictly-positive-count sites (:replace count, :join batch,
via parse_positive_usize) consume only a strictly positive usize, so a 0
there is left in the stream and the parse fails on it as an unknown
trailing token; and a defect-free command line parses with all tokens
consumed. -/
theorem parse_eager_structural :
    (∀ args e, parse_input args = .error e → parse args = .error e) ∧
    (∀ args i r1 e, parse_input args = .ok (i, r1) → parse_ops r1 = .error e →
      parse args = .error e) ∧
    (∀ args i r1 ops r2 e, parse_input args = .ok (i, r1) →
      parse_ops r1 = .ok (ops, r2) → parse_output r2 = .error e →
      parse args = .error e) ∧
    (∀ args i r1 ops r2 o r3, parse_input args = .ok (i, r1) →
      parse_ops r1 = .ok (ops, r2) → parse_output r2 = .ok (o, r3) →
      (r3 = [] → parse args = .ok (i, ops, o)) ∧
      (r3 ≠ [] → parse args = .error (.UnknownArgs r3))) ∧
    (∀ tok rest, isCmdToken tok = true → lowerAscii tok ∉ inputKeywords →
      lowerAscii tok ∉ opKeywords →
      parse (tok :: rest) = .error (.UnknownArgs (tok :: rest))) ∧
    parse [":replace"] = .error (.MissingArg ":replace" "from") ∧
    parse [":file"] = .error (.MissingArg ":file" "file_name") ∧
    (∀ v rest, parseUsizeLit v = none →
      parse (":limit" :: v :: rest) =
        .error (.ArgParseErr ":limit" "count" v "invalid usize literal")) ∧
    (∀ pat rest, regexSyntaxOk pat = false →
      parse (":trimr" :: pat :: rest) = .error (.ParseRegexErr pat "invalid regex")) ∧
    parse [":limit", "0"] = .ok (.StdIn, [.Slice []], .StdOut) ∧
    (∀ v rest u, parseUsizeLit v = some u → 0 < u →
      parse_positive_usize (v :: rest) = (some u, rest)) ∧
    (∀ v rest, parseUsizeLit v = some 0 ∨ parseUsizeLit v = none →
      parse_positive_usize (v :: rest) = (none, v :: rest)) ∧
    parse [":replace", "a", "b", "0"] = .error (.UnknownArgs ["0"]) ∧
    parse [":join", "d", "l", "e", "0"] = .error (.UnknownArgs ["0"]) ∧
    parse [":of", "a", "b", ":upper", ":limit", "5", "to", "out"] =
      .ok (.Of ["a", "b"], [.Case .Upper, .Slice [(none, some 4)]], .StdOut) := by
  refine ⟨?_, ?_, ?_, ?_, ?_, rfl, rfl, ?_, ?_, rfl, ?_, ?_, rfl, rfl, rfl⟩
  · intro args e h
    unfold parse
    rw [h]
  · intro args i r1 e h1 h2
    unfold parse
    simp only [h1, h2]
  · intro args i r1 ops r2 e h1 h2 h3
    unfold parse
    simp only [h1, h2, h3]
  · intro args i r1 ops r2 o r3 h1 h2 h3
    constructor
    · intro hr3
      subst hr3
      unfold parse
      simp only [h1, h2, h3]
      rw [if_pos trivial]
    · intro hr3
      unfold parse
      simp only [h1, h2, h3]
      rw [if_neg hr3]
  · intro tok rest hcmd hin hop
    have g1 := parse_input_default rest hin
    have g2 := parse_ops_default rest hop
    have g3 := parse_output_not_to rest (cmdToken_not_to hcmd)
    unfold parse
    simp only [g1, g2, g3]
    rw [if_neg (List.cons_ne_nil tok rest)]
  · intro v rest hv
    have husize : parse_usize ":limit" "count" (v :: rest) =
        .error (.ArgParseErr ":limit" "count" v "invalid usize literal") := by
      dsimp only [parse_usize]
      rw [hv]
    have hlim : parse_limit (":limit" :: v :: rest) =
        .error (.ArgParseErr ":limit" "count" v "invalid usize literal") := by
      dsimp only [parse_limit]
      rw [husize]
    have hop : parse_op (":limit" :: v :: rest) =
        .error (.ArgParseErr ":limit" "count" v "invalid usize literal") := by
      rw [show parse_op (":limit" :: v :: rest) =
          (match parse_limit (":limit" :: v :: rest) with
           | .error e => .error e
           | .ok (op, r') => .ok (some op, r')) from rfl, hlim]
    have hops : parse_ops (":limit" :: v :: rest) =
        .error (.ArgParseErr ":limit" "count" v "invalid usize literal") := by
      unfold parse_ops parse_ops_go
      rw [hop]
    unfold parse
    simp only [show parse_input (":limit" :: v :: rest) =
      .ok (.StdIn, ":limit" :: v :: rest) from rfl, hops]
  · intro pat rest hpat
    have htr : parse_trim_regex ":trimr" .Both (":trimr" :: pat :: rest) =
        .error (.ParseRegexErr pat "invalid regex") := by
      dsimp only [parse_trim_regex]
      rw [hpat]
      rfl
    have hop : parse_op (":trimr" :: pat :: rest) =
        .error (.ParseRegexErr pat "invalid regex") := by
      rw [show parse_op (":trimr" :: pat :: rest) =
          (match parse_trim_regex ":trimr" .Both (":trimr" :: pat :: rest) with
           | .error e => .error e
           | .ok (op, r') => .ok (some op, r')) from rfl, htr]
    have hops : parse_ops (":trimr" :: pat :: rest) =
        .error (.ParseRegexErr pat "invalid regex") := by
      unfold parse_ops parse_ops_go
      rw [hop]
    unfold parse
    simp only [show parse_input (":trimr" :: pat :: rest) =
      .ok (.StdIn, ":trimr" :: pat :: rest) from rfl, hops]
  · intro v rest u hv hu
    dsimp only [parse_positive_usize]
    simp only [hv]
    rw [if_pos hu]
  · intro v rest h
    dsimp only [parse_positive_usize]
    rcases h with h | h
    · rw [h]
      rfl
    · rw [h]

/-- Witness: every hypothesis-bearing clause of `parse_eager_structural`
exercised at a concrete input: an input-clause error (:file without file
name), an operator-clause error (:limit -1), an output-clause error
(to file without file name), a full success with everything consumed
(:in), a trailing-token failure (:count junk), an unknown command
(:frobnicate), an invalid numeric literal, an invalid regex, and the
positive-count consumption rules at 7 and 0. -/
theorem parse_eager_structural_witness :
    (parse [":file"] = .error (.MissingArg ":file" "file_name")) ∧
    (parse [":limit", "-1"] =
      .error (.ArgParseErr ":limit" "count" "-1" "invalid usize literal")) ∧
    (parse ["to", "file"] = .error (.MissingArg "to file" "file")) ∧
    (parse [":in"] = .ok (.StdIn, [], .StdOut)) ∧
    (parse [":count", "junk"] = .error (.UnknownArgs ["junk"])) ∧
    (isCmdToken ":frobnicate" = true ∧
      parse [":frobnicate"] = .error (.UnknownArgs [":frobnicate"])) ∧
    (parseUsizeLit "-1" = none ∧
      parse [":limit", "-1", "x"] =
        .error (.ArgParseErr ":limit" "count" "-1" "invalid usize literal")) ∧
    (regexSyntaxOk "[" = false ∧
      parse [":trimr", "["] = .error (.ParseRegexErr "[" "invalid regex")) ∧
    (parse_positive_usize ["7", "x"] = (some 7, ["x"])) ∧
    (parse_positive_usize ["0", "x"] = (none, ["0", "x"])) := by
  obtain ⟨c1, c2, c3, c4, c5, -, -, c8, c9, -, c11, c12, -, -, -⟩ :=
    parse_eager_structural
  refine ⟨?_, ?_, ?_, ?_, ?_, ⟨by decide, ?_⟩, ⟨rfl, ?_⟩, ⟨rfl, ?_⟩, ?_, ?_⟩
  · exact c1 [":file"] (.MissingArg ":file" "file_name") rfl
  · exact c2 [":limit", "-1"] .StdIn [":limit", "-1"]
      (.ArgParseErr ":limit" "count" "-1" "invalid usize literal") rfl rfl
  · exact c3 ["to", "file"] .StdIn ["to", "file"] [] ["to", "file"]
      (.MissingArg "to file" "file") rfl rfl rfl
  · exact (c4 [":in"] .StdIn [] [] [] .StdOut [] rfl rfl rfl).1 rfl
  · exact (c4 [":count", "junk"] .StdIn [":count", "junk"] [.Count] ["junk"]
      .StdOut ["junk"] rfl rfl rfl).2 (by simp)
  · exact c5 ":frobnicate" [] (by decide) (by decide) (by decide)
  · exact c8 "-1" ["x"] rfl
  · exact c9 "[" [] rfl
  · exact c11 "7" ["x"] 7 rfl (by decide)
  · exact c12 "0" ["x"] (Or.inl rfl)

/-- C9 counterexample to the original claim: `:limit 0` - a non-positive
count where the claim demands a positive one - parses successfully into an
empty-range slice (the pipeline runs and emits nothing) instead of
erroring, while a genuinely invalid count literal does error. -/
theorem limit_zero_parses_ok :
    parse [":limit", "0"] = .ok (.StdIn, [.Slice []], .StdOut) ∧
    parse [":limit", "-1"] =
      .error (.ArgParseErr ":limit" "count" "-1" "invalid usize literal") :=
  ⟨rfl, rfl⟩
